import Mathlib

/-!
# The length-framed store of `internal/log`

A shallow embedding of `internal/log/store.go` together with the parts of the Go
standard library it runs on (`os.File`, `bufio.Writer`, `encoding/binary`, `make`).

* A byte is a `Fin 256`; a byte slice is a `List Byte`.
* `uint64` values are natural numbers reduced `% 2 ^ 64`; the `int64` offsets handed to
  `ReadAt` are integers obtained with `toInt64`.
* The store's mutex serialises every method, so each method is a function from the state
  before the call to the state after it and the values returned.
* A file handle carries its write offset and whether it was opened in append mode.  A write
  lands at the handle's offset, over the bytes that are there, or at the end of the file in
  append mode; positional reads leave the offset alone.  Nothing in the package seeks or
  truncates, so the offset never passes the end of the file.
* The medium accepts every write that keeps the file within `maxFileSize`.  The failures the
  handle itself produces are modelled: a closed handle, a negative offset, a read past the
  end of the file, a write past the largest file offset.
-/

namespace Log

/-- One byte. -/
abbrev Byte := Fin 256

/-- The byte holding the low eight bits of `n` (Go's `byte(n)`). -/
def toByte (n : Nat) : Byte := ⟨n % 256, Nat.mod_lt _ (by decide)⟩

/-- Package constant `lenWidth`: the number of bytes of a length prefix. -/
def lenWidth : Nat := 8

/-- Size of the buffer `bufio.NewWriter` allocates (`defaultBufSize`). -/
def defaultBufSize : Nat := 4096

/-- Largest length a file can have: the largest `int64`, the type of `FileInfo.Size()` and
of the offset of `ReadAt`. -/
def maxFileSize : Nat := 2 ^ 63 - 1

/-- Largest allocation the Go runtime makes on a 64-bit platform (`maxAlloc`, 48 address
bits); `make([]byte, n)` panics for a larger `n`. -/
def maxAlloc : Nat := 2 ^ 48

/-- The conversion `int64(x)` of a `uint64`. -/
def toInt64 (x : Nat) : Int :=
  if x % 2 ^ 64 < 2 ^ 63 then ((x % 2 ^ 64 : Nat) : Int) else ((x % 2 ^ 64 : Nat) : Int) - 2 ^ 64

/-- The errors the modelled calls return. -/
inductive Error where
  | ErrClosed
  | ErrNegativeOffset
  | EOF
  | ErrFileTooLarge
  | ErrShortWrite
  deriving DecidableEq, Repr

/-- `enc.PutUint64` / `binary.Write(w, enc, v)` for a `uint64`: the eight bytes of `v`, most
significant first. -/
def PutUint64 (v : Nat) : List Byte :=
  [toByte (v / 2 ^ 56), toByte (v / 2 ^ 48), toByte (v / 2 ^ 40), toByte (v / 2 ^ 32),
   toByte (v / 2 ^ 24), toByte (v / 2 ^ 16), toByte (v / 2 ^ 8), toByte v]

/-- `enc.Uint64(b)`: the big-endian value of the first eight bytes of `b`. -/
def Uint64 (b : List Byte) : Nat :=
  (b.take 8).foldl (fun acc x => acc * 256 + x.val) 0

/-- An `*os.File`: the bytes of the file, whether the handle has been closed, the handle's
write offset and whether the file was opened with `O_APPEND`.  A handle as `os.CreateTemp`
or `os.OpenFile` returns it stands at offset 0; the offset is within the file. -/
structure OsFile where
  data : List Byte
  closed : Bool
  offset : Nat := 0
  append : Bool := false
  offset_le : offset ≤ data.length := by omega
  deriving DecidableEq, Repr

/-- Where the next write through the handle lands: the end of the file in append mode, the
handle's offset otherwise. -/
def OsFile.writePos (f : OsFile) : Nat := if f.append then f.data.length else f.offset

/-- The file after the bytes `w` are written through the handle: they replace the bytes at
the write position, lengthen the file where they pass its end, and the offset moves past
them. -/
def OsFile.writeBytes (f : OsFile) (w : List Byte) : OsFile :=
  { data := f.data.take f.writePos ++ w ++ f.data.drop (f.writePos + w.length),
    closed := f.closed,
    offset := f.writePos + w.length,
    append := f.append,
    offset_le := by
      have h := f.offset_le
      simp only [OsFile.writePos, List.length_append, List.length_take, List.length_drop]
      split <;> omega }

/-- `(*os.File).Write`: returns the file, the number of bytes written and the error.  A closed
handle writes nothing; a write that would pass `maxFileSize` writes what fits and fails. -/
def OsFile.Write (f : OsFile) (b : List Byte) : OsFile × Nat × Option Error :=
  if f.closed then (f, 0, some Error.ErrClosed)
  else
    let room := maxFileSize - f.writePos
    if b.length ≤ room then (f.writeBytes b, b.length, none)
    else (f.writeBytes (b.take room), room, some Error.ErrFileTooLarge)

/-- The handle's next write lands at the end of the file: it was opened in append mode, or
its offset is the file's length (a new file, or a file written only through this handle). -/
def OsFile.WritesAtEnd (f : OsFile) : Prop := f.writePos = f.data.length

instance (f : OsFile) : Decidable f.WritesAtEnd := by
  unfold OsFile.WritesAtEnd
  infer_instance

/-- The file after a flush of the pending bytes `w` that returns no error: untouched when
nothing is pending, written once otherwise. -/
def OsFile.flushed (f : OsFile) (w : List Byte) : OsFile :=
  if w.length = 0 then f else f.writeBytes w

/-- `(*os.File).ReadAt(b, off)`: returns the buffer after the call, the number of bytes read
and the error.  The offset is checked first, an empty buffer is never read into, and a read
that meets the end of the file before the buffer is full returns `EOF`. -/
def OsFile.ReadAt (f : OsFile) (b : List Byte) (off : Int) : List Byte × Nat × Option Error :=
  if off < 0 then (b, 0, some Error.ErrNegativeOffset)
  else if b.length = 0 then (b, 0, none)
  else if f.closed then (b, 0, some Error.ErrClosed)
  else
    let got := (f.data.drop off.toNat).take b.length
    if got.length < b.length then (got ++ b.drop got.length, got.length, some Error.EOF)
    else (got, got.length, none)

/-- `(*os.File).Close`. -/
def OsFile.Close (f : OsFile) : OsFile × Option Error :=
  if f.closed then (f, some Error.ErrClosed) else ({ f with closed := true }, none)

/-- A `*bufio.Writer` of size `defaultBufSize`: the bytes buffered so far (`b.buf[0:b.n]`)
and the sticky error `b.err`.  The writer's destination is the store's file, passed to each
call. -/
structure Writer where
  buf : List Byte
  err : Option Error
  deriving DecidableEq, Repr

/-- `bufio.NewWriter(f)`. -/
def NewWriter : Writer := { buf := [], err := none }

/-- `(*bufio.Writer).Buffered`. -/
def Writer.Buffered (b : Writer) : Nat := b.buf.length

/-- `(*bufio.Writer).Available`. -/
def Writer.Available (b : Writer) : Nat := defaultBufSize - b.buf.length

/-- `(*bufio.Writer).Flush`. -/
def Writer.Flush (b : Writer) (f : OsFile) : Writer × OsFile × Option Error :=
  match b.err with
  | some e => (b, f, some e)
  | none =>
    if b.buf.length = 0 then (b, f, none)
    else
      match f.Write b.buf with
      | (f1, n, err) =>
        let err1 : Option Error :=
          if n < b.buf.length ∧ err = none then some Error.ErrShortWrite else err
        match err1 with
        | some e => ({ buf := b.buf.drop n, err := some e }, f1, some e)
        | none => ({ b with buf := [] }, f1, none)

/-- The `for len(p) > b.Available() && b.err == nil` loop of `(*bufio.Writer).Write`, run for
at most `fuel` rounds: returns the writer, the file, the part of `p` not yet consumed and
the running count `nn`. -/
def Writer.writeLoop : Nat → Writer → OsFile → List Byte → Nat → Writer × OsFile × List Byte × Nat
  | 0, b, f, p, nn => (b, f, p, nn)
  | fuel + 1, b, f, p, nn =>
    if p.length > b.Available ∧ b.err = none then
      if b.Buffered = 0 then
        match f.Write p with
        | (f1, n, e) => Writer.writeLoop fuel { b with err := e } f1 (p.drop n) (nn + n)
      else
        let n := min b.Available p.length
        match Writer.Flush { b with buf := b.buf ++ p.take n } f with
        | (b1, f1, _) => Writer.writeLoop fuel b1 f1 (p.drop n) (nn + n)
    else (b, f, p, nn)

/-- `(*bufio.Writer).Write`: returns the writer, the file, the count `nn` and the error.  The
loop ends within two rounds (`Writer.writeLoop_exits`). -/
def Writer.Write (b : Writer) (f : OsFile) (p : List Byte) : Writer × OsFile × Nat × Option Error :=
  match Writer.writeLoop 2 b f p 0 with
  | (b1, f1, p1, nn) =>
    match b1.err with
    | some e => (b1, f1, nn, some e)
    | none =>
      let n := min b1.Available p1.length
      ({ b1 with buf := b1.buf ++ p1.take n }, f1, nn + n, none)

/-- The `store` struct: the embedded file, the buffered writer and the size counter. -/
structure store where
  File : OsFile
  buf : Writer
  size : Nat
  deriving DecidableEq, Repr

/-- `newStore(f)`: `os.Stat` on the handle's path is taken to succeed (the file exists). -/
def newStore (f : OsFile) : store :=
  { File := f, size := f.data.length % 2 ^ 64, buf := NewWriter }

/-- `(*store).Append(p)`: returns the store and the triple `(n, pos, err)`. -/
def store.Append (s : store) (p : List Byte) : store × Nat × Nat × Option Error :=
  let pos := s.size
  match s.buf.Write s.File (PutUint64 (p.length % 2 ^ 64)) with
  | (b1, f1, _, some e) => ({ s with buf := b1, File := f1 }, 0, 0, some e)
  | (b1, f1, _, none) =>
    match b1.Write f1 p with
    | (b2, f2, _, some e) => ({ s with buf := b2, File := f2 }, 0, 0, some e)
    | (b2, f2, w, none) =>
      let w1 := (w + lenWidth) % 2 ^ 64
      ({ File := f2, buf := b2, size := (s.size + w1) % 2 ^ 64 }, w1, pos, none)

/-- `make([]byte, n)` for a `uint64` `n`: `none` when the runtime panics. -/
def makeBytes (n : Nat) : Option (List Byte) :=
  if n ≤ maxAlloc then some (List.replicate n 0) else none

/-- What a call of `(*store).Read` does: it returns a payload (`none` is the nil slice) and
an error, or it panics. -/
inductive ReadResult where
  | returned (b : Option (List Byte)) (err : Option Error)
  | panicked
  deriving DecidableEq, Repr

/-- `(*store).Read(pos)`. -/
def store.Read (s : store) (pos : Nat) : store × ReadResult :=
  match s.buf.Flush s.File with
  | (b1, f1, some e) => ({ s with buf := b1, File := f1 }, ReadResult.returned none (some e))
  | (b1, f1, none) =>
    let s1 : store := { s with buf := b1, File := f1 }
    match f1.ReadAt (List.replicate lenWidth 0) (toInt64 pos) with
    | (_, _, some e) => (s1, ReadResult.returned none (some e))
    | (size, _, none) =>
      match makeBytes (Uint64 size) with
      | none => (s1, ReadResult.panicked)
      | some b =>
        match f1.ReadAt b (toInt64 (pos + lenWidth)) with
        | (_, _, some e) => (s1, ReadResult.returned none (some e))
        | (b2, _, none) => (s1, ReadResult.returned (some b2) none)

/-- `(*store).ReadAt(p, off)`: returns the store, the buffer after the call, the count and
the error. -/
def store.ReadAt (s : store) (p : List Byte) (off : Int) : store × List Byte × Nat × Option Error :=
  match s.buf.Flush s.File with
  | (b1, f1, some e) => ({ s with buf := b1, File := f1 }, p, 0, some e)
  | (b1, f1, none) =>
    match f1.ReadAt p off with
    | (p1, n, e) => ({ s with buf := b1, File := f1 }, p1, n, e)

/-- `(*store).Close`. -/
def store.Close (s : store) : store × Option Error :=
  match s.buf.Flush s.File with
  | (b1, f1, some e) => ({ s with buf := b1, File := f1 }, some e)
  | (b1, f1, none) =>
    match f1.Close with
    | (f2, e) => ({ s with buf := b1, File := f2 }, e)

/-- The bytes the file holds once the buffer is flushed: the file's bytes followed by the
bytes pending in the write buffer. -/
def store.content (s : store) : List Byte := s.File.data ++ s.buf.buf

/-- The frame `Append` writes for `p`: the length prefix, then the payload. -/
def frame (p : List Byte) : List Byte := PutUint64 (p.length % 2 ^ 64) ++ p

/-- A store whose writer carries no error, whose buffer is within its capacity, whose file is
within `maxFileSize`, and whose counter is the length of the file plus the pending bytes.
`newStore` establishes this. -/
def store.Consistent (s : store) : Prop :=
  s.buf.err = none ∧ s.buf.buf.length ≤ defaultBufSize ∧ s.File.data.length ≤ maxFileSize ∧
    s.size = s.File.data.length + s.buf.buf.length

instance (s : store) : Decidable s.Consistent := by
  unfold store.Consistent
  infer_instance

/-- A consistent store whose handle writes at the end of its file.  `newStore` on such a
handle establishes this and every call that returns no error keeps it
(`Reachable.appending`). -/
def store.Appending (s : store) : Prop :=
  s.buf.err = none ∧ s.buf.buf.length ≤ defaultBufSize ∧ s.File.data.length ≤ maxFileSize ∧
    s.size = s.File.data.length + s.buf.buf.length ∧ s.File.WritesAtEnd

instance (s : store) : Decidable s.Appending := by
  unfold store.Appending
  infer_instance

/-- Appends the payloads in order, as the loop of `testAppend` does, and collects the triples
`(n, pos, err)` the calls return. -/
def appendAll (s : store) : List (List Byte) → store × List (Nat × Nat × Option Error)
  | [] => (s, [])
  | p :: ps =>
    match s.Append p with
    | (s1, r) =>
      match appendAll s1 ps with
      | (s2, rs) => (s2, r :: rs)

/-- One call on the store that returns no error: `Append`, `Read` or `ReadAt`. -/
inductive Step : store → store → Prop where
  | append (s s1 : store) (p : List Byte) (n pos : Nat) :
      s.Append p = (s1, n, pos, none) → Step s s1
  | read (s s1 : store) (pos : Nat) (b : Option (List Byte)) :
      s.Read pos = (s1, ReadResult.returned b none) → Step s s1
  | readAt (s s1 : store) (p p1 : List Byte) (off : Int) (n : Nat) :
      s.ReadAt p off = (s1, p1, n, none) → Step s s1

/-- The stores reachable by calls that return no error from `newStore` on a handle that
writes at the end of its file (of a length an `int64` holds). -/
inductive Reachable : store → Prop where
  | init (f : OsFile) : f.data.length ≤ maxFileSize → f.WritesAtEnd → Reachable (newStore f)
  | step (s s1 : store) : Reachable s → Step s s1 → Reachable s1

/-- A new handle on the same file, as the test helper `openFile` opens it: `os.OpenFile` on
the file's path with `O_APPEND`. -/
def OsFile.reopen (f : OsFile) : OsFile :=
  { data := f.data, closed := false, offset := 0, append := true }

/-- The sum of the frame sizes of the payloads. -/
def framesSize (ps : List (List Byte)) : Nat := (ps.map (fun p => lenWidth + p.length)).sum

/-- The test payload `write = []byte("Hello World")`. -/
def write : List Byte := [72, 101, 108, 108, 111, 32, 87, 111, 114, 108, 100]

/-- An empty, open file, as `os.CreateTemp` returns it. -/
def emptyFile : OsFile := { data := [], closed := false }

/-- A file that holds the 19-byte frame of "Hello World", opened for reading and writing
without `O_APPEND`: the handle stands at offset 0. -/
def frameFile : OsFile := { data := frame write, closed := false }

/-- The payload `[]byte("abc")`. -/
def abc : List Byte := [97, 98, 99]


/-! ## The index of `internal/log`

`index.go` declares the entry widths and the `index` struct; the repository has no code for
the index's operations, which are modelled from the specification. -/

/-- Package variable `offWidth`: an entry's relative offset is a `uint32`. -/
def offWidth : Nat := 4

/-- Package variable `posWidth`: an entry's store position is a `uint64`. -/
def posWidth : Nat := 8

/-- Package variable `entWidth`. -/
def entWidth : Nat := offWidth + posWidth

/-- The four bytes of a `uint32`, most significant first. -/
def PutUint32 (v : Nat) : List Byte :=
  [toByte (v / 2 ^ 24), toByte (v / 2 ^ 16), toByte (v / 2 ^ 8), toByte v]

/-- The big-endian value of the first four bytes of `b`. -/
def Uint32 (b : List Byte) : Nat :=
  (b.take 4).foldl (fun acc x => acc * 256 + x.val) 0

/-- The `index` struct: the mapped region `mmap` (the bytes of the file while it is mapped)
and the logical `size`; `maxCapacity` is the capacity the specification has the index
remember at construction. -/
structure index where
  mmap : List Byte
  size : Nat
  maxCapacity : Nat
  deriving DecidableEq, Repr

/-- The failures of the index operations in the specification. -/
inductive IndexError where
  | notFound
  | capacityExceeded
  deriving DecidableEq, Repr

/-- Modelled from the spec: the construction of an index, absent from `index.go`.  The
file's current size is the logical size, and the file is grown to the maximum capacity before
it is mapped. -/
def newIndex (fileData : List Byte) (maxCapacity : Nat) : index :=
  { mmap := fileData ++ List.replicate (maxCapacity - fileData.length) 0,
    size := fileData.length,
    maxCapacity := maxCapacity }

/-- Modelled from the spec: `Index.Write`, absent from `index.go`.  It fails with a capacity
error if `size + 12 > maxCapacity`; otherwise it encodes the 4-byte relative offset and the
8-byte position at byte `size` of the mapped region and advances `size` by 12. -/
def index.Write (i : index) (relativeOffset position : Nat) : index × Option IndexError :=
  if i.size + entWidth > i.maxCapacity then (i, some IndexError.capacityExceeded)
  else
    ({ i with
        mmap := i.mmap.take i.size ++ (PutUint32 relativeOffset ++ PutUint64 position) ++
          i.mmap.drop (i.size + entWidth),
        size := i.size + entWidth },
      none)

/-- Modelled from the spec: `Index.Read`, absent from `index.go`.  `-1` addresses the most
recently written entry and a non-negative index the entry at byte `relativeIndex * 12`; the
call fails with not-found if the index has no entry or the entry falls at or beyond `size`,
and otherwise decodes the 4-byte offset and the 8-byte position stored there.  The
specification gives no meaning to an index below `-1`; it is taken to address no entry. -/
def index.Read (i : index) (relativeIndex : Int) : Nat × Nat × Option IndexError :=
  if i.size = 0 then (0, 0, some IndexError.notFound)
  else if relativeIndex < -1 then (0, 0, some IndexError.notFound)
  else
    let entry : Nat := if relativeIndex = -1 then i.size / entWidth - 1 else relativeIndex.toNat
    let start := entry * entWidth
    if start ≥ i.size then (0, 0, some IndexError.notFound)
    else
      (Uint32 ((i.mmap.drop start).take offWidth),
        Uint64 ((i.mmap.drop (start + offWidth)).take posWidth), none)

/-- Writes the positions in order under the relative offsets `n`, `n + 1`, ..., and collects
the errors the calls return. -/
def index.writeAll (i : index) (n : Nat) : List Nat → index × List (Option IndexError)
  | [] => (i, [])
  | pos :: ps =>
    match i.Write n pos with
    | (i1, e) =>
      match index.writeAll i1 (n + 1) ps with
      | (i2, es) => (i2, e :: es)

/-- The twelve bytes of the entry for a relative offset and a position. -/
def indexEntry (e : Nat × Nat) : List Byte := PutUint32 e.1 ++ PutUint64 e.2

/-- The index holds exactly the entries `es`: its size is twelve bytes per entry, the
mapped region covers the capacity, and the region's first `size` bytes are the entries. -/
def index.Holds (i : index) (es : List (Nat × Nat)) : Prop :=
  i.size = entWidth * es.length ∧ i.maxCapacity ≤ i.mmap.length ∧
    i.mmap.take i.size = (es.map indexEntry).flatten

end Log

/-! # The in-memory log of `internal/server`

A shallow embedding of `internal/server/log.go`.  A `uint64` is a natural number; the
conversion `uint64(len(c.records))` is exact because a slice length is a non-negative `int`.
The mutex serialises the methods, so each is a function of the log's state. -/

namespace Server

/-- The `Record` struct. -/
structure Record where
  Value : String
  Offset : Nat
  deriving DecidableEq, Repr

/-- The `Log` struct: the slice of records. -/
structure Log where
  records : List Record
  deriving DecidableEq, Repr

/-- The errors of the package: `ErrOffsetNotFound`. -/
inductive Error where
  | ErrOffsetNotFound
  deriving DecidableEq, Repr

/-- `NewLog()`. -/
def NewLog : Log := { records := [] }

/-- `(*Log).Append(record)`: returns the log, the offset and the error. -/
def Log.Append (c : Log) (record : Record) : Log × Nat × Option Error :=
  let record1 : Record := { record with Offset := c.records.length }
  ({ records := c.records ++ [record1] }, record1.Offset, none)

/-- `(*Log).Read(offset)`: returns the log, the record and the error. -/
def Log.Read (c : Log) (offset : Nat) : Log × Record × Option Error :=
  if h : offset ≥ c.records.length then
    (c, { Value := "", Offset := 0 }, some Error.ErrOffsetNotFound)
  else (c, c.records.get ⟨offset, Nat.lt_of_not_ge h⟩, none)

/-- One call on the log: an `Append` or a `Read`. -/
inductive LogStep : Log → Log → Prop where
  | append (c : Log) (record : Record) : LogStep c (c.Append record).1
  | read (c : Log) (offset : Nat) : LogStep c (c.Read offset).1

/-- The logs reachable from `NewLog` by `Append` and `Read` calls. -/
inductive LogReachable : Log → Prop where
  | init : LogReachable NewLog
  | step (c c1 : Log) : LogReachable c → LogStep c c1 → LogReachable c1

/-- The record at every index of the slice carries that index as its offset. -/
def Log.OffsetsMatch (c : Log) : Prop :=
  ∀ (i : Nat) (r : Record), c.records[i]? = some r → r.Offset = i

end Server

namespace Log

/-! ## Encoding -/

theorem PutUint64_length (v : Nat) : (PutUint64 v).length = 8 := rfl

theorem Uint64_PutUint64 (v : Nat) : Uint64 (PutUint64 v) = v % 2 ^ 64 := by
  simp only [Uint64, PutUint64, toByte, List.take, List.foldl]
  omega

theorem Uint64_take (b c : List Byte) (h : b.length = 8) : Uint64 (b ++ c) = Uint64 b := by
  unfold Uint64
  rw [List.take_append_of_le_length (by omega)]

theorem toInt64_of_lt (x : Nat) (h : x < 2 ^ 63) : toInt64 x = (x : Int) := by
  unfold toInt64
  have h1 : x % 2 ^ 64 = x := Nat.mod_eq_of_lt (by omega)
  rw [h1, if_pos h]

/-! ## The file -/

theorem OsFile.writeBytes_atEnd {f : OsFile} (w : List Byte) (h : f.WritesAtEnd) :
    (f.writeBytes w).data = f.data ++ w ∧ (f.writeBytes w).WritesAtEnd := by
  have hp : f.writePos = f.data.length := h
  have hd : (f.writeBytes w).data = f.data ++ w := by
    show f.data.take f.writePos ++ w ++ f.data.drop (f.writePos + w.length) = f.data ++ w
    rw [hp, List.take_length, List.drop_eq_nil_of_le (by omega), List.append_nil]
  refine ⟨hd, ?_⟩
  show (if f.append = true then (f.writeBytes w).data.length else f.writePos + w.length) =
    (f.writeBytes w).data.length
  rw [hd, hp, List.length_append]
  split <;> rfl

theorem OsFile.writesAtEnd_of_empty {f : OsFile} (hf : f.data = []) : f.WritesAtEnd := by
  have h := f.offset_le
  unfold OsFile.WritesAtEnd OsFile.writePos
  rw [hf] at h ⊢
  simp only [List.length_nil, Nat.le_zero_eq] at h ⊢
  split
  · rfl
  · exact h

theorem OsFile.flushed_atEnd {f : OsFile} (w : List Byte) (h : f.WritesAtEnd) :
    (f.flushed w).data = f.data ++ w ∧ (f.flushed w).WritesAtEnd ∧
      (f.flushed w).closed = f.closed := by
  unfold OsFile.flushed
  split
  · rename_i hz
    have hw : w = [] := List.length_eq_zero.mp hz
    subst hw
    exact ⟨by simp, h, rfl⟩
  · exact ⟨(OsFile.writeBytes_atEnd w h).1, (OsFile.writeBytes_atEnd w h).2, rfl⟩

theorem OsFile.Write_file_ok {f f1 : OsFile} {b : List Byte} {n : Nat}
    (h : f.Write b = (f1, n, none)) :
    f.closed = false ∧ f1 = f.writeBytes b ∧ n = b.length ∧
      b.length ≤ maxFileSize - f.writePos := by
  unfold OsFile.Write at h
  split at h
  · simp at h
  · rename_i hc
    simp only at h
    split at h
    · rename_i hr
      simp only [Prod.mk.injEq, and_true] at h
      exact ⟨by simpa using hc, h.1.symm, h.2.symm, hr⟩
    · simp at h

theorem OsFile.Write_file_inv {f f1 : OsFile} {b : List Byte} {n : Nat} {e : Option Error}
    (hat : f.WritesAtEnd) (h : f.Write b = (f1, n, e)) :
    f1.closed = f.closed ∧ f1.data = f.data ++ b.take n ∧ n ≤ b.length ∧
      (f.data.length ≤ maxFileSize → f1.data.length ≤ maxFileSize) ∧ f1.WritesAtEnd := by
  have hp : f.writePos = f.data.length := hat
  unfold OsFile.Write at h
  split at h
  · simp only [Prod.mk.injEq] at h
    obtain ⟨rfl, rfl, -⟩ := h
    simp [hat]
  · simp only at h
    split at h
    · rename_i hr
      simp only [Prod.mk.injEq] at h
      obtain ⟨rfl, rfl, -⟩ := h
      obtain ⟨hd, hat1⟩ := OsFile.writeBytes_atEnd b hat
      refine ⟨rfl, by simp [hd], Nat.le_refl _, ?_, hat1⟩
      intro _
      rw [hd, List.length_append]
      omega
    · rename_i hr
      simp only [Prod.mk.injEq] at h
      obtain ⟨rfl, rfl, -⟩ := h
      obtain ⟨hd, hat1⟩ := OsFile.writeBytes_atEnd (b.take (maxFileSize - f.writePos)) hat
      refine ⟨rfl, hd, by omega, ?_, hat1⟩
      intro _
      rw [hd, List.length_append, List.length_take]
      omega

theorem OsFile.Write_eq {f : OsFile} {b : List Byte} (hc : f.closed = false)
    (hat : f.WritesAtEnd) (hr : f.data.length + b.length ≤ maxFileSize) :
    f.Write b = (f.writeBytes b, b.length, none) := by
  have hp : f.writePos = f.data.length := hat
  unfold OsFile.Write
  rw [if_neg (by simp [hc])]
  simp only
  rw [if_pos (by omega)]

theorem OsFile.ReadAt_eq {f : OsFile} {b : List Byte} {off : Nat} (hc : f.closed = false)
    (hr : off + b.length ≤ f.data.length) :
    f.ReadAt b (off : Int) = ((f.data.drop off).take b.length, b.length, none) := by
  unfold OsFile.ReadAt
  rw [if_neg (by omega)]
  by_cases hb : b.length = 0
  · rw [if_pos hb]
    have : b = [] := List.length_eq_zero.mp hb
    subst this
    simp
  · rw [if_neg hb, if_neg (by simp [hc])]
    have hl : ((f.data.drop off).take b.length).length = b.length := by
      rw [List.length_take, List.length_drop]; omega
    simp only [Int.toNat_ofNat]
    rw [if_neg (by omega), hl]

/-! ## The buffered writer -/

theorem Writer.Flush_err {b b1 : Writer} {f f1 : OsFile} {e : Option Error}
    (h : b.Flush f = (b1, f1, e)) : b1.err = e := by
  unfold Writer.Flush at h
  split at h
  · rename_i e0 he
    simp only [Prod.mk.injEq] at h
    obtain ⟨rfl, -, rfl⟩ := h
    exact he
  · rename_i he
    split at h
    · simp only [Prod.mk.injEq] at h
      obtain ⟨rfl, -, rfl⟩ := h
      exact he
    · split at h
      simp only at h
      split at h
      · simp only [Prod.mk.injEq] at h
        obtain ⟨rfl, -, rfl⟩ := h
        rfl
      · simp only [Prod.mk.injEq] at h
        obtain ⟨rfl, -, rfl⟩ := h
        exact he

theorem Writer.Flush_inv {b b1 : Writer} {f f1 : OsFile} {e : Option Error}
    (hat : f.WritesAtEnd) (h : b.Flush f = (b1, f1, e)) :
    f1.closed = f.closed ∧ f1.data ++ b1.buf = f.data ++ b.buf ∧ b1.err = e ∧
      b1.buf.length ≤ b.buf.length ∧
      (f.data.length ≤ maxFileSize → f1.data.length ≤ maxFileSize) ∧ f1.WritesAtEnd := by
  unfold Writer.Flush at h
  split at h
  · rename_i e0 he
    simp only [Prod.mk.injEq] at h
    obtain ⟨rfl, rfl, rfl⟩ := h
    simp [he, hat]
  · rename_i he
    split at h
    · simp only [Prod.mk.injEq] at h
      obtain ⟨rfl, rfl, rfl⟩ := h
      simp [he, hat]
    · split at h
      rename_i f2 n err hw
      obtain ⟨hc, hd, hn, hl, hat1⟩ := OsFile.Write_file_inv hat hw
      simp only at h
      split at h
      · simp only [Prod.mk.injEq] at h
        obtain ⟨rfl, rfl, rfl⟩ := h
        refine ⟨hc, ?_, rfl, by simp, hl, hat1⟩
        simp only [hd, List.append_assoc, List.take_append_drop]
      · rename_i herr
        simp only [Prod.mk.injEq] at h
        obtain ⟨rfl, rfl, rfl⟩ := h
        have hnn : ¬ (n < b.buf.length ∧ err = none) := by
          intro hcon
          rw [if_pos hcon] at herr
          simp at herr
        rw [if_neg hnn] at herr
        have hnl : n = b.buf.length := by
          rcases Nat.lt_or_ge n b.buf.length with hlt | hge
          · exact absurd ⟨hlt, herr⟩ hnn
          · omega
        refine ⟨hc, ?_, he, by simp, hl, hat1⟩
        simp [hd, hnl]

/-- A flush that returns no error has written the pending bytes once, at the handle's write
position, and emptied the buffer. -/
theorem Writer.Flush_done {b b1 : Writer} {f f1 : OsFile}
    (h : b.Flush f = (b1, f1, none)) :
    b.err = none ∧ b1 = { buf := [], err := none } ∧ f1 = f.flushed b.buf ∧
      b.buf.length ≤ maxFileSize - f.writePos ∧ (b.buf ≠ [] → f.closed = false) := by
  unfold Writer.Flush at h
  split at h
  · simp at h
  · rename_i he
    split at h
    · rename_i hz
      simp only [Prod.mk.injEq, and_true] at h
      obtain ⟨rfl, rfl⟩ := h
      have hb : b.buf = [] := List.length_eq_zero.mp hz
      refine ⟨he, ?_, by simp [OsFile.flushed, hb], by simp [hb], fun hne => absurd hb hne⟩
      cases b
      simp_all
    · rename_i hz
      split at h
      rename_i f2 n err hw
      simp only at h
      split at h
      · simp at h
      · rename_i herr
        simp only [Prod.mk.injEq, and_true] at h
        obtain ⟨rfl, rfl⟩ := h
        have herr2 : err = none := by
          by_cases hcon : n < b.buf.length ∧ err = none
          · exact hcon.2
          · rw [if_neg hcon] at herr; exact herr
        subst herr2
        obtain ⟨hc, hf, -, hr⟩ := OsFile.Write_file_ok hw
        exact ⟨he, by rw [he], by rw [hf, OsFile.flushed, if_neg hz], hr, fun _ => hc⟩

theorem Writer.Flush_ok {b b1 : Writer} {f f1 : OsFile} (hat : f.WritesAtEnd)
    (h : b.Flush f = (b1, f1, none)) :
    b.err = none ∧ b1 = { buf := [], err := none } ∧ f1.data = f.data ++ b.buf ∧
      b.buf.length ≤ maxFileSize - f.data.length ∧ (b.buf ≠ [] → f.closed = false) ∧
      f1.WritesAtEnd := by
  obtain ⟨he, hb1, hf1, hr, hc⟩ := Writer.Flush_done h
  obtain ⟨hd, hat1, -⟩ := OsFile.flushed_atEnd b.buf hat
  have hp : f.writePos = f.data.length := hat
  rw [hp] at hr
  rw [← hf1] at hd hat1
  exact ⟨he, hb1, hd, hr, hc, hat1⟩

theorem Writer.Flush_eq {b : Writer} {f : OsFile} (he : b.err = none) (hc : f.closed = false)
    (hat : f.WritesAtEnd) (hr : f.data.length + b.buf.length ≤ maxFileSize) :
    b.Flush f = ({ buf := [], err := none }, f.flushed b.buf, none) := by
  unfold Writer.Flush
  rw [he]
  simp only
  by_cases hz : b.buf.length = 0
  · rw [if_pos hz]
    have hb : b.buf = [] := List.length_eq_zero.mp hz
    cases b
    simp_all [OsFile.flushed]
  · rw [if_neg hz, OsFile.Write_eq hc hat hr, OsFile.flushed, if_neg hz]
    simp

theorem Writer.writeLoop_inv (fuel : Nat) :
    ∀ (b : Writer) (f : OsFile) (p : List Byte) (nn : Nat) (b1 : Writer) (f1 : OsFile)
      (p1 : List Byte) (nn1 : Nat), f.WritesAtEnd →
      Writer.writeLoop fuel b f p nn = (b1, f1, p1, nn1) →
      f1.closed = f.closed ∧ (f.data.length ≤ maxFileSize → f1.data.length ≤ maxFileSize) ∧
      f1.WritesAtEnd ∧
      (b1.err = none → b.err = none ∧ f1.data ++ b1.buf ++ p1 = f.data ++ b.buf ++ p ∧
        nn1 + p1.length = nn + p.length ∧
        (b.buf.length ≤ defaultBufSize → b1.buf.length ≤ defaultBufSize)) := by
  induction fuel with
  | zero =>
    intro b f p nn b1 f1 p1 nn1 hat h
    simp only [Writer.writeLoop, Prod.mk.injEq] at h
    obtain ⟨rfl, rfl, rfl, rfl⟩ := h
    simp [hat]
  | succ k ih =>
    intro b f p nn b1 f1 p1 nn1 hat h
    rw [Writer.writeLoop] at h
    split at h
    · rename_i hcond
      obtain ⟨hlen, herr⟩ := hcond
      split at h
      · rename_i hbuf
        have hb : b.buf = [] := List.length_eq_zero.mp hbuf
        split at h
        rename_i f2 n e hw
        obtain ⟨hc2, hd2, hn2, hl2, hat2⟩ := OsFile.Write_file_inv hat hw
        obtain ⟨hc, hl, hat1, hrest⟩ := ih _ _ _ _ _ _ _ _ hat2 h
        refine ⟨hc.trans hc2, fun hm => hl (hl2 hm), hat1, ?_⟩
        intro h1
        obtain ⟨he, hcont, hnn, hcap⟩ := hrest h1
        simp only at he
        subst he
        obtain ⟨-, -, hn, -⟩ := OsFile.Write_file_ok hw
        subst hn
        simp only [List.drop_length, List.length_nil, List.take_length] at hcont hnn hd2
        refine ⟨herr, ?_, by omega, hcap⟩
        rw [hcont, hd2]
        simp [hb]
      · rename_i hbuf
        dsimp only at h
        rcases hfl : Writer.Flush { buf := b.buf ++ List.take (min b.Available p.length) p, err := b.err } f with ⟨b2, f2, e⟩
        rw [hfl] at h
        dsimp only at h
        obtain ⟨hc2, hd2, he2, hbl2, hl2, hat2⟩ := Writer.Flush_inv hat hfl
        obtain ⟨hc, hl, hat1, hrest⟩ := ih _ _ _ _ _ _ _ _ hat2 h
        refine ⟨hc.trans hc2, fun hm => hl (hl2 hm), hat1, ?_⟩
        intro h1
        obtain ⟨he, hcont, hnn, hcap⟩ := hrest h1
        have hmin : min b.Available p.length = b.Available := by omega
        rw [hmin] at hcont hnn hd2 hbl2
        have hb2 : b2.buf = [] := by
          rw [he] at he2
          rw [← he2] at hfl
          exact (congrArg Writer.buf (Writer.Flush_done hfl).2.1)
        refine ⟨herr, ?_, ?_, ?_⟩
        · rw [hcont, List.append_assoc f2.data, ← List.append_assoc f2.data b2.buf, hd2]
          simp only [List.append_assoc, List.take_append_drop]
        · simp only [List.length_drop] at hnn
          omega
        · intro _
          apply hcap
          rw [hb2]
          simp
    · simp only [Prod.mk.injEq] at h
      obtain ⟨rfl, rfl, rfl, rfl⟩ := h
      simp [hat]

theorem Writer.writeLoop_exits (b : Writer) (f : OsFile) (p : List Byte) (nn : Nat)
    (b1 : Writer) (f1 : OsFile) (p1 : List Byte) (nn1 : Nat)
    (h : Writer.writeLoop 2 b f p nn = (b1, f1, p1, nn1)) :
    ¬ (p1.length > b1.Available ∧ b1.err = none) := by
  have direct : ∀ (b : Writer) (f : OsFile) (p : List Byte) (nn : Nat) (k : Nat)
      (b1 : Writer) (f1 : OsFile) (p1 : List Byte) (nn1 : Nat), b.Buffered = 0 →
      Writer.writeLoop (k + 1) b f p nn = (b1, f1, p1, nn1) →
      ¬ (p1.length > b1.Available ∧ b1.err = none) := by
    intro b f p nn k b1 f1 p1 nn1 hbuf h
    rw [Writer.writeLoop] at h
    split at h
    · split at h
      rename_i f2 n e hw
      cases e with
      | none =>
        obtain ⟨-, -, hn, -⟩ := OsFile.Write_file_ok hw
        subst hn
        cases k with
        | zero =>
          simp only [Writer.writeLoop, Prod.mk.injEq] at h
          obtain ⟨rfl, rfl, rfl, rfl⟩ := h
          simp
        | succ j =>
          rw [Writer.writeLoop, if_neg (by simp)] at h
          simp only [Prod.mk.injEq] at h
          obtain ⟨rfl, rfl, rfl, rfl⟩ := h
          simp
      | some e0 =>
        cases k with
        | zero =>
          simp only [Writer.writeLoop, Prod.mk.injEq] at h
          obtain ⟨rfl, rfl, rfl, rfl⟩ := h
          simp
        | succ j =>
          rw [Writer.writeLoop, if_neg (by simp)] at h
          simp only [Prod.mk.injEq] at h
          obtain ⟨rfl, rfl, rfl, rfl⟩ := h
          simp
    · rename_i hcond
      simp only [Prod.mk.injEq] at h
      obtain ⟨rfl, rfl, rfl, rfl⟩ := h
      exact hcond
  by_cases hbuf : b.Buffered = 0
  · exact direct b f p nn 1 b1 f1 p1 nn1 hbuf h
  · rw [Writer.writeLoop] at h
    split at h
    · dsimp only at h
      rcases hfl : Writer.Flush { buf := b.buf ++ List.take (min b.Available p.length) p, err := b.err } f with ⟨b2, f2, e⟩
      rw [hfl] at h
      dsimp only at h
      have he2 := Writer.Flush_err hfl
      cases e with
      | none =>
        have hb2 : b2.Buffered = 0 := by
          have := (Writer.Flush_done hfl).2.1
          rw [this]; rfl
        exact direct _ _ _ _ 0 _ _ _ _ hb2 h
      | some e0 =>
        rw [Writer.writeLoop, if_neg (by simp [he2])] at h
        simp only [Prod.mk.injEq] at h
        obtain ⟨rfl, rfl, rfl, rfl⟩ := h
        simp [he2]
    · rename_i hcond
      simp only [Prod.mk.injEq] at h
      obtain ⟨rfl, rfl, rfl, rfl⟩ := h
      exact hcond


theorem Writer.Write_ok {b b1 : Writer} {f f1 : OsFile} {p : List Byte} {nn : Nat}
    (hat : f.WritesAtEnd) (h : b.Write f p = (b1, f1, nn, none)) :
    b.err = none ∧ b1.err = none ∧ f1.data ++ b1.buf = f.data ++ b.buf ++ p ∧
      nn = p.length ∧ f1.closed = f.closed ∧
      (b.buf.length ≤ defaultBufSize → b1.buf.length ≤ defaultBufSize) ∧
      (f.data.length ≤ maxFileSize → f1.data.length ≤ maxFileSize) ∧ f1.WritesAtEnd := by
  unfold Writer.Write at h
  rcases hloop : Writer.writeLoop 2 b f p 0 with ⟨b2, f2, p2, nn2⟩
  rw [hloop] at h
  dsimp only at h
  obtain ⟨hc, hl, hat1, hrest⟩ := Writer.writeLoop_inv 2 _ _ _ _ _ _ _ _ hat hloop
  have hexit := Writer.writeLoop_exits _ _ _ _ _ _ _ _ hloop
  split at h
  · simp at h
  · rename_i he2
    obtain ⟨he, hcont, hnn, hcap⟩ := hrest he2
    have hp2 : p2.length ≤ b2.Available := by
      rcases Nat.lt_or_ge b2.Available p2.length with hlt | hge
      · exact absurd ⟨hlt, he2⟩ hexit
      · exact hge
    have hmin : min b2.Available p2.length = p2.length := by omega
    rw [hmin] at h
    simp only [List.take_length, Prod.mk.injEq, and_true] at h
    obtain ⟨rfl, rfl, rfl⟩ := h
    refine ⟨he, he2, ?_, by omega, hc, ?_, hl, hat1⟩
    · simp only [← List.append_assoc]
      simpa using hcont
    · intro hb
      have := hcap hb
      simp only [Writer.Available] at hp2
      simp only [List.length_append]
      omega

/-- A writer that carries an error accepts nothing: `Write` returns that error. -/
theorem Writer.Write_sticky {b : Writer} {e : Error} (f : OsFile) (p : List Byte)
    (he : b.err = some e) : b.Write f p = (b, f, 0, some e) := by
  have hloop : Writer.writeLoop 2 b f p 0 = (b, f, p, 0) := by
    rw [Writer.writeLoop, if_neg (by simp [he])]
  unfold Writer.Write
  rw [hloop]
  dsimp only
  rw [he]

/-! ## The store -/

theorem frame_length (p : List Byte) : (frame p).length = lenWidth + p.length := by
  simp [frame, PutUint64_length, lenWidth]

/-- An append that returns no error started on a writer without an error. -/
theorem store.Append_err_none {s s1 : store} {p : List Byte} {n pos : Nat}
    (h : s.Append p = (s1, n, pos, none)) : s.buf.err = none := by
  cases he : s.buf.err with
  | none => rfl
  | some e =>
    unfold store.Append at h
    dsimp only at h
    rw [Writer.Write_sticky s.File _ he] at h
    simp at h

theorem store.Append_ok {s s1 : store} {p : List Byte} {n pos : Nat}
    (hat : s.File.WritesAtEnd) (h : s.Append p = (s1, n, pos, none)) :
    s.buf.err = none ∧ s1.buf.err = none ∧ s1.content = s.content ++ frame p ∧
      n = (p.length + lenWidth) % 2 ^ 64 ∧ pos = s.size ∧
      s1.size = (s.size + (p.length + lenWidth) % 2 ^ 64) % 2 ^ 64 ∧
      s1.File.closed = s.File.closed ∧
      (s.buf.buf.length ≤ defaultBufSize → s1.buf.buf.length ≤ defaultBufSize) ∧
      (s.File.data.length ≤ maxFileSize → s1.File.data.length ≤ maxFileSize) ∧
      s1.File.WritesAtEnd := by
  unfold store.Append at h
  dsimp only at h
  rcases hw1 : s.buf.Write s.File (PutUint64 (p.length % 2 ^ 64)) with ⟨b1, f1, w1, e1⟩
  rw [hw1] at h
  cases e1 with
  | some e => simp at h
  | none =>
    dsimp only at h
    rcases hw2 : b1.Write f1 p with ⟨b2, f2, w2, e2⟩
    rw [hw2] at h
    cases e2 with
    | some e => simp at h
    | none =>
      simp only [Prod.mk.injEq, and_true] at h
      obtain ⟨rfl, rfl, rfl⟩ := h
      obtain ⟨he, he1, hc1, -, hcl1, hcap1, hl1, hat1⟩ := Writer.Write_ok hat hw1
      obtain ⟨-, he2, hc2, hn2, hcl2, hcap2, hl2, hat2⟩ := Writer.Write_ok hat1 hw2
      subst hn2
      refine ⟨he, he2, ?_, rfl, rfl, rfl, hcl2.trans hcl1, fun hb => hcap2 (hcap1 hb),
        fun hf => hl2 (hl1 hf), hat2⟩
      simp only [store.content, frame]
      rw [hc2, hc1, List.append_assoc]


theorem PutUint64_mod (v : Nat) : PutUint64 (v % 2 ^ 64) = PutUint64 v := by
  simp only [PutUint64, toByte, List.cons.injEq, Fin.mk.injEq, and_true]
  refine ⟨?_, ?_, ?_, ?_, ?_, ?_, ?_, ?_⟩ <;> omega

theorem store.Append_appending {s s1 : store} {p : List Byte} {n pos : Nat}
    (hs : s.Appending) (h : s.Append p = (s1, n, pos, none)) :
    s1.Appending ∧ s1.content = s.content ++ frame p ∧ n = lenWidth + p.length ∧
      pos = s.size ∧ s1.size = s.size + lenWidth + p.length ∧
      s1.File.closed = s.File.closed := by
  obtain ⟨he, hcap, hlen, hsize, hat⟩ := hs
  obtain ⟨-, he1, hcont, hn, hpos, hsz, hcl, hcap1, hlen1, hat1⟩ := store.Append_ok hat h
  have hcap1 := hcap1 hcap
  have hlen1 := hlen1 hlen
  have hl : s1.File.data.length + s1.buf.buf.length =
      s.File.data.length + s.buf.buf.length + (lenWidth + p.length) := by
    have := congrArg List.length hcont
    simp only [store.content, List.length_append, frame_length] at this
    omega
  have hbound : s.size + (lenWidth + p.length) < 2 ^ 64 := by
    simp only [maxFileSize, defaultBufSize] at hlen1 hcap1
    omega
  have hmod : (p.length + lenWidth) % 2 ^ 64 = lenWidth + p.length := by
    rw [Nat.mod_eq_of_lt (by omega)]; omega
  rw [hmod] at hsz hn
  rw [Nat.mod_eq_of_lt hbound] at hsz
  refine ⟨⟨he1, hcap1, hlen1, by omega, hat1⟩, hcont, hn, hpos, by omega, hcl⟩

theorem store.content_length {s : store} (hs : s.Appending) : s.content.length = s.size := by
  simp only [store.content, List.length_append]
  exact hs.2.2.2.1.symm

/-- When the flush leaves an open file that holds a frame at `pre.length`, `Read` there
returns the frame's payload. -/
theorem store.Read_flushed {s : store} {b1 : Writer} {f1 : OsFile} {pre post p : List Byte}
    (hfl : s.buf.Flush s.File = (b1, f1, none)) (hopen : f1.closed = false)
    (hlen : f1.data.length ≤ maxFileSize) (hp : p.length ≤ maxAlloc)
    (hdata : f1.data = pre ++ frame p ++ post) :
    (s.Read pre.length).2 = ReadResult.returned (some p) none := by
  have htot : pre.length + (lenWidth + p.length) + post.length ≤ maxFileSize := by
    have := congrArg List.length hdata
    simp only [List.length_append, frame_length] at this
    omega
  have hmax : maxFileSize < 2 ^ 63 := by simp [maxFileSize]
  have hw : lenWidth = 8 := rfl
  have hpm : p.length % 2 ^ 64 = p.length := Nat.mod_eq_of_lt (by omega)
  unfold store.Read
  rw [hfl]
  dsimp only
  rw [toInt64_of_lt _ (by omega : pre.length < 2 ^ 63)]
  rw [OsFile.ReadAt_eq hopen (by
    simp only [List.length_replicate, hdata, List.length_append, frame_length]; omega)]
  dsimp only
  have h8 : (List.take (List.replicate lenWidth (0 : Byte)).length
      (List.drop pre.length f1.data)) = PutUint64 (p.length % 2 ^ 64) := by
    rw [hdata, List.append_assoc, List.drop_left, frame, List.append_assoc]
    exact List.take_left' (by simp [PutUint64_length, lenWidth])
  rw [h8, Uint64_PutUint64, hpm, hpm]
  unfold makeBytes
  rw [if_pos hp]
  dsimp only
  rw [toInt64_of_lt _ (by omega : pre.length + lenWidth < 2 ^ 63)]
  rw [OsFile.ReadAt_eq hopen (by
    simp only [List.length_replicate, hdata, List.length_append, frame_length]; omega)]
  dsimp only
  have hp2 : List.take (List.replicate p.length (0 : Byte)).length
      (List.drop (pre.length + lenWidth) f1.data) = p := by
    rw [hdata, List.append_assoc, ← List.drop_drop, List.drop_left, frame, List.append_assoc,
      List.drop_left' (by simp [PutUint64_length, lenWidth])]
    exact List.take_left' (by simp)
  rw [hp2]

/-- Reading at the start of a frame of the logical content returns the frame's payload. -/
theorem store.Read_frame {s : store} {pre post p : List Byte}
    (he : s.buf.err = none) (ho : s.File.closed = false) (hat : s.File.WritesAtEnd)
    (hlen : s.content.length ≤ maxFileSize) (hp : p.length ≤ maxAlloc)
    (hc : s.content = pre ++ frame p ++ post) :
    (s.Read pre.length).2 = ReadResult.returned (some p) none := by
  have hlen2 : s.File.data.length + s.buf.buf.length ≤ maxFileSize := by
    simpa [store.content] using hlen
  obtain ⟨hfd, -, hfc⟩ := OsFile.flushed_atEnd s.buf.buf hat
  exact store.Read_flushed (Writer.Flush_eq he ho hat hlen2) (hfc.trans ho)
    (by rw [hfd, List.length_append]; exact hlen2) hp (hfd.trans hc)

/-! ## Writes that succeed -/

theorem Writer.writeLoop_succeeds (fuel : Nat) :
    ∀ (b : Writer) (f : OsFile) (p : List Byte) (nn : Nat), b.err = none → f.closed = false →
      f.WritesAtEnd → f.data.length + b.buf.length + p.length ≤ maxFileSize →
      (Writer.writeLoop fuel b f p nn).1.err = none := by
  induction fuel with
  | zero => intro b f p nn he _ _ _; simpa [Writer.writeLoop] using he
  | succ k ih =>
    intro b f p nn he ho hat hr
    rw [Writer.writeLoop]
    split
    · split
      · rename_i hbuf
        have hb : b.buf.length = 0 := hbuf
        obtain ⟨hd, hat1⟩ := OsFile.writeBytes_atEnd p hat
        rw [OsFile.Write_eq ho hat (by omega)]
        dsimp only
        apply ih
        · rfl
        · exact ho
        · exact hat1
        · rw [hd]
          simp only [List.length_append, List.drop_length, List.length_nil]
          omega
      · dsimp only
        have hmin : min b.Available p.length ≤ p.length := Nat.min_le_right _ _
        have hfl := Writer.Flush_eq (b := ⟨b.buf ++ List.take (min b.Available p.length) p, b.err⟩)
          he ho hat (by simp only [List.length_append, List.length_take]; omega)
        obtain ⟨hd, hat1, hc1⟩ :=
          OsFile.flushed_atEnd (b.buf ++ List.take (min b.Available p.length) p) hat
        rw [hfl]
        dsimp only
        apply ih
        · rfl
        · exact hc1.trans ho
        · exact hat1
        · rw [hd]
          simp only [List.length_append, List.length_take, List.length_drop, List.length_nil]
          omega
    · exact he

theorem Writer.Write_succeeds {b : Writer} {f : OsFile} {p : List Byte} (he : b.err = none)
    (ho : f.closed = false) (hat : f.WritesAtEnd)
    (hr : f.data.length + b.buf.length + p.length ≤ maxFileSize) :
    (b.Write f p).2.2.2 = none := by
  have h := Writer.writeLoop_succeeds 2 b f p 0 he ho hat hr
  unfold Writer.Write
  rcases hloop : Writer.writeLoop 2 b f p 0 with ⟨b2, f2, p2, nn2⟩
  rw [hloop] at h
  dsimp only at h ⊢
  rw [h]

theorem store.Append_succeeds {s : store} {p : List Byte} (hs : s.Appending)
    (ho : s.File.closed = false) (hr : s.size + lenWidth + p.length ≤ maxFileSize) :
    (s.Append p).2.2.2 = none := by
  obtain ⟨he, hcap, hlen, hsize, hat⟩ := hs
  have hw : lenWidth = 8 := rfl
  have h1 := Writer.Write_succeeds (p := PutUint64 (p.length % 2 ^ 64)) he ho hat
    (by rw [PutUint64_length]; omega)
  unfold store.Append
  dsimp only
  rcases hw1 : s.buf.Write s.File (PutUint64 (p.length % 2 ^ 64)) with ⟨b1, f1, w1, e1⟩
  rw [hw1] at h1
  dsimp only at h1
  subst h1
  obtain ⟨-, he1, hc1, -, hcl1, -, -, hat1⟩ := Writer.Write_ok hat hw1
  have hl1 : f1.data.length + b1.buf.length = s.File.data.length + s.buf.buf.length + 8 := by
    have := congrArg List.length hc1
    simpa [PutUint64_length] using this
  have h2 := Writer.Write_succeeds (p := p) he1 (hcl1.trans ho) hat1 (by omega)
  dsimp only
  rcases hw2 : b1.Write f1 p with ⟨b2, f2, w2, e2⟩
  rw [hw2] at h2
  dsimp only at h2
  subst h2
  rfl

/-! ## Sequences of appends -/

theorem framesSize_cons (p : List Byte) (ps : List (List Byte)) :
    framesSize (p :: ps) = lenWidth + p.length + framesSize ps := by
  simp [framesSize]

theorem frames_length (ps : List (List Byte)) :
    ((ps.map frame).flatten).length = framesSize ps := by
  induction ps with
  | nil => rfl
  | cons p ps ih =>
    simp only [List.map_cons, List.flatten_cons, List.length_append, frame_length, ih,
      framesSize_cons]

theorem appendAll_ok (ps : List (List Byte)) :
    ∀ (s s1 : store) (rs : List (Nat × Nat × Option Error)), s.Appending →
      appendAll s ps = (s1, rs) → (∀ r ∈ rs, r.2.2 = none) →
      s1.Appending ∧ s1.content = s.content ++ (ps.map frame).flatten ∧
        s1.size = s.size + framesSize ps ∧ s1.File.closed = s.File.closed ∧
        ∀ (i : Nat) (p : List Byte), ps[i]? = some p →
          rs[i]? = some (lenWidth + p.length, s.size + framesSize (ps.take i), none) := by
  induction ps with
  | nil =>
    intro s s1 rs hs h _
    simp only [appendAll, Prod.mk.injEq] at h
    obtain ⟨rfl, rfl⟩ := h
    simp [hs, framesSize]
  | cons q qs ih =>
    intro s s1 rs hs h hok
    rw [appendAll] at h
    rcases ha : s.Append q with ⟨s2, n, pos, e⟩
    rw [ha] at h
    dsimp only at h
    rcases hb : appendAll s2 qs with ⟨s3, rs3⟩
    rw [hb] at h
    simp only [Prod.mk.injEq] at h
    obtain ⟨rfl, rfl⟩ := h
    have he : e = none := hok (n, pos, e) (List.mem_cons_self _ _)
    subst he
    obtain ⟨hs2, hc2, hn, hpos, hsz, hcl⟩ := store.Append_appending hs ha
    obtain ⟨hs3, hc3, hsz3, hcl3, hidx⟩ :=
      ih s2 s3 rs3 hs2 hb (fun r hr => hok r (List.mem_cons_of_mem _ hr))
    refine ⟨hs3, ?_, ?_, hcl3.trans hcl, ?_⟩
    · rw [hc3, hc2]; simp
    · rw [hsz3, hsz, framesSize_cons]; omega
    · intro i p hip
      cases i with
      | zero =>
        simp only [List.getElem?_cons_zero, Option.some.injEq] at hip
        subst hip
        simp [hn, hpos, framesSize]
      | succ j =>
        simp only [List.getElem?_cons_succ] at hip
        have := hidx j p hip
        simp only [List.getElem?_cons_succ, this, List.take_succ_cons, framesSize_cons, hsz]
        simp only [Option.some.injEq, Prod.mk.injEq, true_and, and_true]
        omega

theorem appendAll_succeeds (ps : List (List Byte)) :
    ∀ (s : store), s.Appending → s.File.closed = false →
      s.size + framesSize ps ≤ maxFileSize → ∀ r ∈ (appendAll s ps).2, r.2.2 = none := by
  induction ps with
  | nil => intro s _ _ _ r hr; simp [appendAll] at hr
  | cons q qs ih =>
    intro s hs ho hfit r hr
    rw [framesSize_cons] at hfit
    have hsucc := store.Append_succeeds (p := q) hs ho (by omega)
    rw [appendAll] at hr
    rcases ha : s.Append q with ⟨s2, n, pos, e⟩
    rw [ha] at hr hsucc
    dsimp only at hr hsucc
    subst hsucc
    obtain ⟨hs2, -, -, -, hsz, hcl⟩ := store.Append_appending hs ha
    rcases hb : appendAll s2 qs with ⟨s3, rs3⟩
    rw [hb] at hr
    simp only [List.mem_cons] at hr
    rcases hr with rfl | hr
    · rfl
    · have := ih s2 hs2 (hcl.trans ho) (by omega) r
      rw [hb] at this
      exact this hr


/-! ## Calls that flush -/

theorem store.Read_ok {s s1 : store} {pos : Nat} {b : Option (List Byte)}
    (h : s.Read pos = (s1, ReadResult.returned b none)) :
    ∃ b1 f1, s.buf.Flush s.File = (b1, f1, none) ∧ s1 = { s with buf := b1, File := f1 } := by
  unfold store.Read at h
  rcases hfl : s.buf.Flush s.File with ⟨b1, f1, e⟩
  rw [hfl] at h
  cases e with
  | some e0 => simp at h
  | none =>
    refine ⟨b1, f1, rfl, ?_⟩
    dsimp only at h
    split at h
    · simp at h
    · split at h
      · simp at h
      · split at h
        · simp at h
        · simp only [Prod.mk.injEq] at h
          exact h.1.symm

theorem store.ReadAt_ok {s s1 : store} {p p1 : List Byte} {off : Int} {n : Nat}
    (h : s.ReadAt p off = (s1, p1, n, none)) :
    ∃ b1 f1, s.buf.Flush s.File = (b1, f1, none) ∧ s1 = { s with buf := b1, File := f1 } := by
  unfold store.ReadAt at h
  rcases hfl : s.buf.Flush s.File with ⟨b1, f1, e⟩
  rw [hfl] at h
  cases e with
  | some e0 => simp at h
  | none =>
    refine ⟨b1, f1, rfl, ?_⟩
    dsimp only at h
    simp only [Prod.mk.injEq] at h
    exact h.1.symm

theorem store.Close_ok {s s1 : store} (h : s.Close = (s1, none)) :
    ∃ b1 f1, s.buf.Flush s.File = (b1, f1, none) ∧
      s1 = { s with buf := b1, File := { f1 with closed := true } } ∧ f1.closed = false := by
  unfold store.Close at h
  rcases hfl : s.buf.Flush s.File with ⟨b1, f1, e⟩
  rw [hfl] at h
  cases e with
  | some e0 => simp at h
  | none =>
    refine ⟨b1, f1, rfl, ?_⟩
    dsimp only at h
    unfold OsFile.Close at h
    split at h
    · simp at h
    · rename_i hc
      simp only [Prod.mk.injEq, and_true] at h
      exact ⟨h.symm, by simpa using hc⟩

/-- A flush that returns no error moves the pending bytes to the file and keeps the store
consistent. -/
theorem store.flush_appending {s : store} {b1 : Writer} {f1 : OsFile} (hs : s.Appending)
    (h : s.buf.Flush s.File = (b1, f1, none)) :
    f1.data = s.content ∧ b1.buf = [] ∧ f1.data.length = s.size ∧ s.size ≤ maxFileSize ∧
      f1.closed = s.File.closed ∧
      store.Appending { s with buf := b1, File := f1 } := by
  obtain ⟨he, hcap, hlen, hsize, hat⟩ := hs
  obtain ⟨-, hb1, hf1, hroom, -, hat1⟩ := Writer.Flush_ok hat h
  obtain ⟨hcl, -, -, -, hl, -⟩ := Writer.Flush_inv hat h
  have hl1 := hl hlen
  have hlen1 : f1.data.length = s.size := by rw [hf1, List.length_append]; omega
  subst hb1
  exact ⟨hf1, rfl, hlen1, by omega, hcl,
    ⟨rfl, by simp, hl1, by simpa using hlen1.symm, hat1⟩⟩

theorem Step.keeps_appending {s s1 : store} (hs : s.Appending) (h : Step s s1) :
    s1.Appending ∧ s.size ≤ s1.size := by
  cases h with
  | append p n pos ha =>
    obtain ⟨hs1, -, -, -, hsz, -⟩ := store.Append_appending hs ha
    exact ⟨hs1, by omega⟩
  | read pos b hr =>
    obtain ⟨b1, f1, hfl, rfl⟩ := store.Read_ok hr
    exact ⟨(store.flush_appending hs hfl).2.2.2.2.2, Nat.le_refl _⟩
  | readAt p p1 off n hr =>
    obtain ⟨b1, f1, hfl, rfl⟩ := store.ReadAt_ok hr
    exact ⟨(store.flush_appending hs hfl).2.2.2.2.2, Nat.le_refl _⟩

theorem newStore_appending {f : OsFile} (hf : f.data.length ≤ maxFileSize)
    (hat : f.WritesAtEnd) : (newStore f).Appending := by
  refine ⟨rfl, by simp [newStore, NewWriter], hf, ?_, hat⟩
  simp only [newStore, NewWriter, List.length_nil, Nat.add_zero]
  apply Nat.mod_eq_of_lt
  simp only [maxFileSize] at hf
  omega

theorem Reachable.appending {s : store} (h : Reachable s) : s.Appending := by
  induction h with
  | init f hf hat => exact newStore_appending hf hat
  | step s s1 _ hstep ih => exact (Step.keeps_appending ih hstep).1

theorem appendAll_length (ps : List (List Byte)) :
    ∀ (s : store), (appendAll s ps).2.length = ps.length := by
  induction ps with
  | nil => intro s; rfl
  | cons q qs ih =>
    intro s
    rw [appendAll]
    rcases ha : s.Append q with ⟨s2, r⟩
    dsimp only
    have := ih s2
    rcases hb : appendAll s2 qs with ⟨s3, rs3⟩
    rw [hb] at this
    simpa using this

theorem framesSize_take_le (ps : List (List Byte)) (i : Nat) :
    framesSize (ps.take i) ≤ framesSize ps := by
  induction ps generalizing i with
  | nil => simp
  | cons q qs ih =>
    cases i with
    | zero => simp [framesSize]
    | succ j =>
      simp only [List.take_succ_cons, framesSize_cons]
      have := ih j
      omega

theorem framesSize_take_succ (ps : List (List Byte)) (i : Nat) (p : List Byte)
    (h : ps[i]? = some p) :
    framesSize (ps.take (i + 1)) = framesSize (ps.take i) + (lenWidth + p.length) := by
  induction ps generalizing i with
  | nil => simp at h
  | cons q qs ih =>
    cases i with
    | zero =>
      simp only [List.getElem?_cons_zero, Option.some.injEq] at h
      subst h
      simp [framesSize]
    | succ j =>
      simp only [List.getElem?_cons_succ] at h
      simp only [List.take_succ_cons, framesSize_cons, ih j h]
      omega

/-- The frames of a list split around its `i`-th payload. -/
theorem frames_split (ps : List (List Byte)) (i : Nat) (p : List Byte) (h : ps[i]? = some p) :
    (ps.map frame).flatten =
      ((ps.take i).map frame).flatten ++ frame p ++ ((ps.drop (i + 1)).map frame).flatten := by
  induction ps generalizing i with
  | nil => simp at h
  | cons q qs ih =>
    cases i with
    | zero =>
      simp only [List.getElem?_cons_zero, Option.some.injEq] at h
      subst h
      simp
    | succ j =>
      simp only [List.getElem?_cons_succ] at h
      simp only [List.map_cons, List.flatten_cons, List.take_succ_cons, List.drop_succ_cons,
        ih j h, List.append_assoc]


/-! ## Counters, wherever the handle writes -/

theorem OsFile.writePos_le (f : OsFile) : f.writePos ≤ f.data.length := by
  unfold OsFile.writePos
  split
  · exact Nat.le_refl _
  · exact f.offset_le

theorem OsFile.writePos_writeBytes (f : OsFile) (w : List Byte) :
    (f.writeBytes w).writePos = f.writePos + w.length := by
  show (if f.append = true then (f.writeBytes w).data.length else f.writePos + w.length) =
    f.writePos + w.length
  split
  · rename_i ha
    have hp : f.writePos = f.data.length := by simp [OsFile.writePos, ha]
    show (f.data.take f.writePos ++ w ++ f.data.drop (f.writePos + w.length)).length = _
    rw [hp]
    simp
  · rfl

theorem Writer.Flush_pos {b b1 : Writer} {f f1 : OsFile} (hwp : f.writePos ≤ maxFileSize)
    (h : b.Flush f = (b1, f1, none)) :
    f1.writePos = f.writePos + b.buf.length ∧ b1.buf = [] ∧ f1.writePos ≤ maxFileSize := by
  obtain ⟨-, hb1, hf1, hr, -⟩ := Writer.Flush_done h
  have hpos : f1.writePos = f.writePos + b.buf.length := by
    rw [hf1, OsFile.flushed]
    split
    · rename_i hz
      rw [hz]; rfl
    · exact OsFile.writePos_writeBytes f b.buf
  refine ⟨hpos, by rw [hb1], ?_⟩
  omega

theorem Writer.writeLoop_nil (k : Nat) (b : Writer) (f : OsFile) (nn : Nat) :
    Writer.writeLoop k b f [] nn = (b, f, [], nn) := by
  cases k with
  | zero => rfl
  | succ j => rw [Writer.writeLoop, if_neg (by simp)]

theorem Writer.writeLoop_sticky (k : Nat) {b : Writer} {e : Error} (f : OsFile)
    (p : List Byte) (nn : Nat) (he : b.err = some e) :
    Writer.writeLoop k b f p nn = (b, f, p, nn) := by
  cases k with
  | zero => rfl
  | succ j => rw [Writer.writeLoop, if_neg (by simp [he])]

theorem Writer.writeLoop_err_none {k : Nat} {b b1 : Writer} {f f1 : OsFile}
    {p p1 : List Byte} {nn nn1 : Nat} (h : Writer.writeLoop k b f p nn = (b1, f1, p1, nn1))
    (he1 : b1.err = none) : b.err = none := by
  cases he : b.err with
  | none => rfl
  | some e =>
    rw [Writer.writeLoop_sticky k f p nn he] at h
    simp only [Prod.mk.injEq] at h
    obtain ⟨rfl, -⟩ := h
    rw [he] at he1
    cases he1

/-- From an empty buffer the loop either does nothing or writes all of `p` to the file. -/
theorem Writer.writeLoop_empty_buffer {k : Nat} {b b1 : Writer} {f f1 : OsFile}
    {p p1 : List Byte} {nn nn1 : Nat} (hb : b.buf = []) (hwp : f.writePos ≤ maxFileSize)
    (h : Writer.writeLoop k b f p nn = (b1, f1, p1, nn1)) (he1 : b1.err = none) :
    (b1 = b ∧ f1 = f ∧ p1 = p ∧ nn1 = nn) ∨
      (b1.buf = [] ∧ p1 = [] ∧ f1.writePos = f.writePos + p.length ∧
        f1.writePos ≤ maxFileSize ∧ nn1 = nn + p.length) := by
  cases k with
  | zero =>
    simp only [Writer.writeLoop, Prod.mk.injEq] at h
    obtain ⟨rfl, rfl, rfl, rfl⟩ := h
    exact Or.inl ⟨rfl, rfl, rfl, rfl⟩
  | succ j =>
    rw [Writer.writeLoop] at h
    split at h
    · have hbuf : b.Buffered = 0 := by simp [Writer.Buffered, hb]
      rw [if_pos hbuf] at h
      split at h
      rename_i f2 n e hw
      have he : e = none := Writer.writeLoop_err_none h he1
      subst he
      obtain ⟨-, hf2, hn, hr⟩ := OsFile.Write_file_ok hw
      subst hn
      rw [List.drop_length, Writer.writeLoop_nil] at h
      simp only [Prod.mk.injEq] at h
      obtain ⟨rfl, rfl, rfl, rfl⟩ := h
      have hpos : f2.writePos = f.writePos + p.length := by
        rw [hf2]; exact OsFile.writePos_writeBytes f p
      exact Or.inr ⟨hb, rfl, hpos, by omega, rfl⟩
    · simp only [Prod.mk.injEq] at h
      obtain ⟨rfl, rfl, rfl, rfl⟩ := h
      exact Or.inl ⟨rfl, rfl, rfl, rfl⟩

/-- The loop conserves the bytes: write position plus pending plus unconsumed bytes is
unchanged; and it either ends with nothing pending or has moved the write position by at most
one buffer. -/
theorem Writer.writeLoop_counters {k : Nat} {b b1 : Writer} {f f1 : OsFile}
    {p p1 : List Byte} {nn nn1 : Nat} (hcap : b.buf.length ≤ defaultBufSize)
    (hwp : f.writePos ≤ maxFileSize)
    (h : Writer.writeLoop k b f p nn = (b1, f1, p1, nn1)) (he1 : b1.err = none) :
    f1.writePos + b1.buf.length + p1.length = f.writePos + b.buf.length + p.length ∧
      nn1 + p1.length = nn + p.length ∧ b1.buf.length ≤ defaultBufSize ∧
      f1.writePos ≤ maxFileSize ∧
      ((b1.buf = [] ∧ p1 = []) ∨ f1.writePos ≤ f.writePos + defaultBufSize) := by
  by_cases hz : b.buf.length = 0
  · have hb : b.buf = [] := List.length_eq_zero.mp hz
    rcases Writer.writeLoop_empty_buffer hb hwp h he1 with
      ⟨rfl, rfl, rfl, rfl⟩ | ⟨hb1, hp1, hpos, hmax, hnn⟩
    · exact ⟨rfl, rfl, hcap, hwp, Or.inr (by omega)⟩
    · refine ⟨?_, ?_, by simp [hb1], hmax, Or.inl ⟨hb1, hp1⟩⟩
      · rw [hb1, hp1, hpos, hz]; simp
      · rw [hp1, hnn]; simp
  · cases k with
    | zero =>
      simp only [Writer.writeLoop, Prod.mk.injEq] at h
      obtain ⟨rfl, rfl, rfl, rfl⟩ := h
      exact ⟨rfl, rfl, hcap, hwp, Or.inr (by omega)⟩
    | succ j =>
      rw [Writer.writeLoop] at h
      split at h
      · rename_i hcond
        rw [if_neg (show ¬ b.Buffered = 0 from hz)] at h
        dsimp only at h
        rcases hfl : Writer.Flush { buf := b.buf ++ List.take (min b.Available p.length) p, err := b.err } f with ⟨b2, f2, e⟩
        rw [hfl] at h
        dsimp only at h
        have he2 : b2.err = none := Writer.writeLoop_err_none h he1
        have he : e = none := by rw [← Writer.Flush_err hfl]; exact he2
        subst he
        obtain ⟨hpos2, hb2, hmax2⟩ := Writer.Flush_pos hwp hfl
        have hav : b.Available = defaultBufSize - b.buf.length := rfl
        have hmin : min b.Available p.length = b.Available := by
          have := hcond.1
          omega
        rw [hmin] at h hpos2
        simp only [List.length_append, List.length_take] at hpos2
        rcases Writer.writeLoop_empty_buffer hb2 hmax2 h he1 with
          ⟨rfl, rfl, rfl, rfl⟩ | ⟨hb1, hp1, hpos, hmax, hnn⟩
        · refine ⟨?_, ?_, by simp [hb2], hmax2, Or.inr (by omega)⟩
          · rw [hb2, hpos2]
            simp only [List.length_nil, List.length_drop]
            have := hcond.1
            omega
          · simp only [List.length_drop]
            have := hcond.1
            omega
        · refine ⟨?_, ?_, by simp [hb1], hmax, Or.inl ⟨hb1, hp1⟩⟩
          · rw [hb1, hp1, hpos, hpos2]
            simp only [List.length_nil, List.length_drop]
            have := hcond.1
            omega
          · rw [hp1, hnn]
            simp only [List.length_nil, List.length_drop]
            have := hcond.1
            omega
      · simp only [Prod.mk.injEq] at h
        obtain ⟨rfl, rfl, rfl, rfl⟩ := h
        exact ⟨rfl, rfl, hcap, hwp, Or.inr (by omega)⟩

theorem Writer.Write_counters {b b1 : Writer} {f f1 : OsFile} {p : List Byte} {nn : Nat}
    (hcap : b.buf.length ≤ defaultBufSize) (hwp : f.writePos ≤ maxFileSize)
    (h : b.Write f p = (b1, f1, nn, none)) :
    nn = p.length ∧ f1.writePos + b1.buf.length = f.writePos + b.buf.length + p.length ∧
      b1.buf.length ≤ defaultBufSize ∧ f1.writePos ≤ maxFileSize ∧
      (b1.buf = [] ∨ f1.writePos ≤ f.writePos + defaultBufSize) := by
  unfold Writer.Write at h
  rcases hloop : Writer.writeLoop 2 b f p 0 with ⟨b2, f2, p2, nn2⟩
  rw [hloop] at h
  dsimp only at h
  have hexit := Writer.writeLoop_exits _ _ _ _ _ _ _ _ hloop
  split at h
  · simp at h
  · rename_i he2
    obtain ⟨hcons, hnn, hcap2, hmax2, hdis⟩ := Writer.writeLoop_counters hcap hwp hloop he2
    have hp2 : p2.length ≤ b2.Available := by
      rcases Nat.lt_or_ge b2.Available p2.length with hlt | hge
      · exact absurd ⟨hlt, he2⟩ hexit
      · exact hge
    have hav : b2.Available = defaultBufSize - b2.buf.length := rfl
    have hmin : min b2.Available p2.length = p2.length := by omega
    rw [hmin] at h
    simp only [List.take_length, Prod.mk.injEq, and_true] at h
    obtain ⟨rfl, rfl, rfl⟩ := h
    refine ⟨by omega, ?_, ?_, hmax2, ?_⟩
    · simp only [List.length_append]; omega
    · simp only [List.length_append]; omega
    · rcases hdis with ⟨hb, hp⟩ | hle
      · exact Or.inl (by simp [hb, hp])
      · exact Or.inr hle

/-- The counters of an append that returns no error, whatever the handle's offset: no `uint64`
addition wraps. -/
theorem store.Append_counters {s s1 : store} {p : List Byte} {n pos : Nat}
    (hs : s.Consistent) (h : s.Append p = (s1, n, pos, none)) :
    n = lenWidth + p.length ∧ pos = s.size ∧ s1.size = s.size + lenWidth + p.length := by
  obtain ⟨he, hcap, hlen, hsize⟩ := hs
  have hwl := OsFile.writePos_le s.File
  have hw : lenWidth = 8 := rfl
  unfold store.Append at h
  dsimp only at h
  rcases hw1 : s.buf.Write s.File (PutUint64 (p.length % 2 ^ 64)) with ⟨b1, f1, w1, e1⟩
  rw [hw1] at h
  cases e1 with
  | some e => simp at h
  | none =>
    dsimp only at h
    rcases hw2 : b1.Write f1 p with ⟨b2, f2, w2, e2⟩
    rw [hw2] at h
    cases e2 with
    | some e => simp at h
    | none =>
      simp only [Prod.mk.injEq, and_true] at h
      obtain ⟨rfl, rfl, rfl⟩ := h
      obtain ⟨-, hc1, hcap1, hmax1, hd1⟩ := Writer.Write_counters hcap (by omega) hw1
      obtain ⟨hn2, hc2, hcap2, hmax2, hd2⟩ := Writer.Write_counters hcap1 hmax1 hw2
      subst hn2
      rw [PutUint64_length] at hc1
      have hb1 : f1.writePos ≤ s.File.writePos + defaultBufSize + 8 := by
        rcases hd1 with hb | hle
        · rw [hb] at hc1
          simp only [List.length_nil] at hc1
          omega
        · omega
      have hbound : s.size + (p.length + lenWidth) < 2 ^ 64 := by
        simp only [maxFileSize, defaultBufSize] at *
        rcases hd2 with hb | hle
        · rw [hb] at hc2
          simp only [List.length_nil] at hc2
          omega
        · omega
      have hmod : (p.length + lenWidth) % 2 ^ 64 = lenWidth + p.length := by
        rw [Nat.mod_eq_of_lt (by omega)]; omega
      dsimp only
      rw [hmod, Nat.mod_eq_of_lt (by omega)]
      exact ⟨rfl, rfl, by omega⟩

theorem store.appending_of_consistent {s : store} (hs : s.Consistent)
    (hat : s.File.WritesAtEnd) : s.Appending :=
  ⟨hs.1, hs.2.1, hs.2.2.1, hs.2.2.2, hat⟩

theorem store.consistent_of_appending {s : store} (hs : s.Appending) : s.Consistent :=
  ⟨hs.1, hs.2.1, hs.2.2.1, hs.2.2.2.1⟩

/-! ## The claims -/

/-- C1, counterexample: a store made on `frameFile`, whose handle stands at offset 0 of a
19-byte file, is consistent and open; `Append "abc"` returns `(11, 19, nil)`, the flush of
the `Read` that follows writes the frame over the start of the file, and `Read 19` meets the
end of the file. -/
theorem append_then_read_fails_on_overwriting_handle :
    (newStore frameFile).Consistent ∧ (newStore frameFile).File.closed = false ∧
      ((newStore frameFile).Append abc).2 = (11, 19, none) ∧
      (((newStore frameFile).Append abc).1.Read 19).2 =
        ReadResult.returned none (some Error.EOF) := by
  decide

/-- C1, amended. Store round trip: on a consistent store with an open handle that writes at
the end of its file, when `Append p` returns no error and position `pos` (payload and frame
end within the ranges of `make` and of a file offset), the `Read pos` that follows returns
exactly `p` and no error, wherever the frame still is (file or write buffer). -/
theorem store_append_read_round_trip (s s1 : store) (p : List Byte) (n pos : Nat)
    (hs : s.Consistent) (hat : s.File.WritesAtEnd) (ho : s.File.closed = false)
    (hp : p.length ≤ maxAlloc) (hfit : s.size + lenWidth + p.length ≤ maxFileSize)
    (h : s.Append p = (s1, n, pos, none)) :
    (s1.Read pos).2 = ReadResult.returned (some p) none := by
  have hsa := store.appending_of_consistent hs hat
  obtain ⟨hs1, hc, -, hpos, hsz, hcl⟩ := store.Append_appending hsa h
  have hlen : s1.content.length ≤ maxFileSize := by
    rw [store.content_length hs1, hsz]; exact hfit
  have hpre : pos = s.content.length := by rw [store.content_length hsa, hpos]
  have hc2 : s1.content = s.content ++ frame p ++ [] := by simpa using hc
  rw [hpre, store.Read_frame hs1.1 (hcl.trans ho) hs1.2.2.2.2 hlen hp hc2]

/-- Witness of C1: one `Append` of "Hello World" to a new store on an empty file leaves the
file empty (the frame is in the buffer) and `Read 0` returns the payload. -/
theorem store_append_read_round_trip_witness :
    ((newStore emptyFile).Append write).1.File.data = [] ∧
      ((((newStore emptyFile).Append write).1).Read 0).2 =
        ReadResult.returned (some write) none :=
  ⟨by decide,
    store_append_read_round_trip (newStore emptyFile) ((newStore emptyFile).Append write).1
      write 19 0 (by decide) (by decide) (by decide) (by decide) (by decide) (by decide)⟩

/-- C2. Earlier records survive later appends: appending payloads `ps` in order to a store
created on an empty open file (each payload within the range of `make`, the frames within
the range of a file offset) succeeds at every step, and after all the appends `Read` at the
position returned for the `i`-th payload returns exactly that payload. -/
theorem earlier_records_survive (f : OsFile) (ps : List (List Byte)) (hf : f.data = [])
    (ho : f.closed = false) (hp : ∀ p ∈ ps, p.length ≤ maxAlloc)
    (hfit : framesSize ps ≤ maxFileSize) (i : Nat) (p : List Byte) (hi : ps[i]? = some p) :
    ∃ n pos, (appendAll (newStore f) ps).2[i]? = some (n, pos, none) ∧
      ((appendAll (newStore f) ps).1.Read pos).2 = ReadResult.returned (some p) none := by
  have hs0 : (newStore f).Appending :=
    newStore_appending (by simp [hf]) (OsFile.writesAtEnd_of_empty hf)
  have hsz0 : (newStore f).size = 0 := by simp [newStore, hf]
  have hc0 : (newStore f).content = [] := by simp [store.content, newStore, NewWriter, hf]
  have hok := appendAll_succeeds ps (newStore f) hs0 ho (by rw [hsz0]; omega)
  rcases hall : appendAll (newStore f) ps with ⟨s1, rs⟩
  rw [hall] at hok
  obtain ⟨hs1, hc1, hsz1, hcl1, hidx⟩ := appendAll_ok ps _ _ _ hs0 hall hok
  refine ⟨lenWidth + p.length, (newStore f).size + framesSize (ps.take i), hidx i p hi, ?_⟩
  have hsplit : s1.content =
      ((ps.take i).map frame).flatten ++ frame p ++ ((ps.drop (i + 1)).map frame).flatten := by
    rw [hc1, hc0, List.nil_append]
    exact frames_split ps i p hi
  have hlen : s1.content.length ≤ maxFileSize := by
    rw [store.content_length hs1, hsz1, hsz0]; omega
  have hpm : p ∈ ps := List.getElem?_mem hi
  have := store.Read_frame hs1.1 (hcl1.trans ho) hs1.2.2.2.2 hlen (hp p hpm) hsplit
  rw [frames_length] at this
  rw [hsz0, Nat.zero_add]
  dsimp only
  rw [this]

/-- Witness of C2: three appends of "Hello World" to a new store on an empty file, then
`Read` at 0, 19 and 38 each return "Hello World". -/
theorem earlier_records_survive_witness :
    (∃ n pos, (appendAll (newStore emptyFile) [write, write, write]).2[1]? = some (n, pos, none) ∧
      ((appendAll (newStore emptyFile) [write, write, write]).1.Read pos).2 =
        ReadResult.returned (some write) none) ∧
    (appendAll (newStore emptyFile) [write, write, write]).2 =
      [(19, 0, none), (19, 19, none), (19, 38, none)] ∧
    ((appendAll (newStore emptyFile) [write, write, write]).1.Read 0).2 =
      ReadResult.returned (some write) none ∧
    ((appendAll (newStore emptyFile) [write, write, write]).1.Read 19).2 =
      ReadResult.returned (some write) none ∧
    ((appendAll (newStore emptyFile) [write, write, write]).1.Read 38).2 =
      ReadResult.returned (some write) none :=
  ⟨earlier_records_survive emptyFile [write, write, write] rfl rfl (by decide) (by decide) 1
      write rfl,
    by decide, by decide, by decide, by decide⟩


/-- C3. Monotonic layout: when payloads `ps` are appended in order to a store created on an
empty file and every call returns no error, the first position is 0, each next position is
the previous one plus 8 plus the previous payload's length, each position plus its frame
size is the sum of `8 + len` over the payloads up to it, and the store's size at the end is
the sum of the returned frame sizes. -/
theorem monotonic_layout (f : OsFile) (ps : List (List Byte)) (s1 : store)
    (rs : List (Nat × Nat × Option Error)) (hf : f.data = [])
    (h : appendAll (newStore f) ps = (s1, rs)) (hok : ∀ r ∈ rs, r.2.2 = none) :
    rs.length = ps.length ∧
    (∀ r, rs[0]? = some r → r.2.1 = 0) ∧
    (∀ i p r r1, ps[i]? = some p → rs[i]? = some r → rs[i + 1]? = some r1 →
      r1.2.1 = r.2.1 + 8 + p.length) ∧
    (∀ i r, rs[i]? = some r → r.2.1 + r.1 = framesSize (ps.take (i + 1))) ∧
    s1.size = (rs.map (fun r => r.1)).sum := by
  have hs0 : (newStore f).Appending :=
    newStore_appending (by simp [hf]) (OsFile.writesAtEnd_of_empty hf)
  have hsz0 : (newStore f).size = 0 := by simp [newStore, hf]
  obtain ⟨-, -, hsz1, -, hidx⟩ := appendAll_ok ps _ _ _ hs0 h hok
  rw [hsz0] at hsz1 hidx
  simp only [Nat.zero_add] at hsz1 hidx
  have hlen : rs.length = ps.length := by
    have := appendAll_length ps (newStore f)
    rw [h] at this
    exact this
  have hw : lenWidth = 8 := rfl
  have hget : ∀ i r, rs[i]? = some r → ∃ p, ps[i]? = some p ∧
      r = (lenWidth + p.length, framesSize (ps.take i), none) := by
    intro i r hr
    have hi : i < ps.length := by
      rw [← hlen]
      exact (List.getElem?_eq_some_iff.1 hr).1
    refine ⟨ps[i], List.getElem?_eq_getElem hi, ?_⟩
    have := hidx i ps[i] (List.getElem?_eq_getElem hi)
    rw [hr] at this
    exact Option.some.inj this
  refine ⟨hlen, ?_, ?_, ?_, ?_⟩
  · intro r hr
    obtain ⟨p, -, rfl⟩ := hget 0 r hr
    simp [framesSize]
  · intro i p r r1 hp hr hr1
    obtain ⟨q, hq, rfl⟩ := hget i r hr
    obtain ⟨q1, -, rfl⟩ := hget (i + 1) r1 hr1
    rw [hp] at hq
    cases hq
    simp only
    rw [framesSize_take_succ ps i p hp]
    omega
  · intro i r hr
    obtain ⟨p, hp, rfl⟩ := hget i r hr
    simp only
    rw [framesSize_take_succ ps i p hp]
  · rw [hsz1, framesSize]
    congr 1
    apply List.ext_getElem?
    intro i
    simp only [List.getElem?_map]
    cases hp : ps[i]? with
    | none =>
      have : rs[i]? = none := by
        rw [List.getElem?_eq_none_iff] at hp ⊢
        omega
      simp [this]
    | some p => simp [hidx i p hp]

/-- Witness of C3: three appends of "Hello World" return positions 0, 19, 38 and frame size
19 each, and leave the size at 57. -/
theorem monotonic_layout_witness :
    (appendAll (newStore emptyFile) [write, write, write]).2.length = 3 ∧
    (∀ r, (appendAll (newStore emptyFile) [write, write, write]).2[0]? = some r → r.2.1 = 0) ∧
    (appendAll (newStore emptyFile) [write, write, write]).1.size = 57 :=
  have h := monotonic_layout emptyFile [write, write, write]
    (appendAll (newStore emptyFile) [write, write, write]).1
    (appendAll (newStore emptyFile) [write, write, write]).2 rfl rfl (by decide)
  ⟨h.1, h.2.1, by decide⟩

/-- C4. Append postcondition: on a consistent store of size `s.size`, an `Append p` that
returns no error returns frame size `8 + len p` and position `s.size`, and leaves the size at
`s.size + 8 + len p`. -/
theorem append_postcondition (s s1 : store) (p : List Byte) (n pos : Nat)
    (hs : s.Consistent) (h : s.Append p = (s1, n, pos, none)) :
    n = 8 + p.length ∧ pos = s.size ∧ s1.size = s.size + 8 + p.length := by
  exact store.Append_counters hs h

/-- Witness of C4: the second append of "Hello World" returns `(19, 19)` and leaves the size
at 38. -/
theorem append_postcondition_witness :
    (19 : Nat) = 8 + write.length ∧ (19 : Nat) = ((newStore emptyFile).Append write).1.size ∧
      ((((newStore emptyFile).Append write).1).Append write).1.size =
        ((newStore emptyFile).Append write).1.size + 8 + write.length :=
  append_postcondition ((newStore emptyFile).Append write).1
    ((((newStore emptyFile).Append write).1).Append write).1 write 19 19 (by decide) (by decide)


theorem mem_framesSize_le {ps : List (List Byte)} {p : List Byte} (h : p ∈ ps) :
    lenWidth + p.length ≤ framesSize ps := by
  induction ps with
  | nil => simp at h
  | cons q qs ih =>
    rw [framesSize_cons]
    rcases List.mem_cons.1 h with rfl | hq
    · omega
    · have := ih hq
      omega

/-- C5. On-disk frame layout: when payloads `ps` are appended in order to a store created on
an empty file, every call returning no error, and the buffer is then flushed without error
(as `Read`, `ReadAt` and `Close` do first), the file's bytes are exactly the concatenation,
in append order, of the 8-byte big-endian encoding of each payload's length followed by the
payload; the 8 bytes at each returned position decode to the payload's length and the bytes
after them are the payload. -/
theorem on_disk_frame_layout (f : OsFile) (ps : List (List Byte)) (s1 : store)
    (rs : List (Nat × Nat × Option Error)) (b2 : Writer) (f2 : OsFile) (hf : f.data = [])
    (h : appendAll (newStore f) ps = (s1, rs)) (hok : ∀ r ∈ rs, r.2.2 = none)
    (hflush : s1.buf.Flush s1.File = (b2, f2, none)) :
    f2.data = (ps.map (fun p => PutUint64 p.length ++ p)).flatten ∧
    ∀ (i : Nat) (p : List Byte), ps[i]? = some p → ∃ n pos : Nat, rs[i]? = some (n, pos, none) ∧
      Uint64 ((f2.data.drop pos).take 8) = p.length ∧
      (f2.data.drop (pos + 8)).take p.length = p := by
  have hs0 : (newStore f).Appending :=
    newStore_appending (by simp [hf]) (OsFile.writesAtEnd_of_empty hf)
  have hsz0 : (newStore f).size = 0 := by simp [newStore, hf]
  have hc0 : (newStore f).content = [] := by simp [store.content, newStore, NewWriter, hf]
  obtain ⟨hs1, hc1, hsz1, -, hidx⟩ := appendAll_ok ps _ _ _ hs0 h hok
  obtain ⟨hdata, -, -, hmax, -, -⟩ := store.flush_appending hs1 hflush
  rw [hc1, hc0, List.nil_append] at hdata
  rw [hsz1, hsz0, Nat.zero_add] at hmax
  have hframe : (fun p : List Byte => PutUint64 p.length ++ p) = frame := by
    funext p
    simp only [frame, PutUint64_mod]
  refine ⟨by rw [hframe]; exact hdata, ?_⟩
  intro i p hi
  refine ⟨lenWidth + p.length, (newStore f).size + framesSize (ps.take i), hidx i p hi, ?_⟩
  have hpl : p.length < 2 ^ 64 := by
    have := mem_framesSize_le (List.getElem?_mem hi)
    simp only [maxFileSize] at hmax
    omega
  rw [hsz0, Nat.zero_add, hdata, frames_split ps i p hi, ← frames_length (ps.take i)]
  constructor
  · rw [List.append_assoc, List.drop_left, frame, List.append_assoc,
      List.take_left' (PutUint64_length _), Uint64_PutUint64, Nat.mod_mod,
      Nat.mod_eq_of_lt hpl]
  · rw [List.append_assoc, ← List.drop_drop, List.drop_left, frame, List.append_assoc,
      List.drop_left' (PutUint64_length _)]
    exact List.take_left' rfl

/-- Witness of C5: after three appends of "Hello World" and a flush, the eight bytes at
position 19 decode to 11 and the file is 57 bytes long. -/
theorem on_disk_frame_layout_witness :
    ((appendAll (newStore emptyFile) [write, write, write]).1.buf.Flush
        (appendAll (newStore emptyFile) [write, write, write]).1.File).2.1.data =
      ([write, write, write].map (fun p => PutUint64 p.length ++ p)).flatten ∧
    Uint64 ((((appendAll (newStore emptyFile) [write, write, write]).1.buf.Flush
        (appendAll (newStore emptyFile) [write, write, write]).1.File).2.1.data.drop 19).take 8)
      = 11 :=
  ⟨(on_disk_frame_layout emptyFile [write, write, write]
      (appendAll (newStore emptyFile) [write, write, write]).1
      (appendAll (newStore emptyFile) [write, write, write]).2
      ((appendAll (newStore emptyFile) [write, write, write]).1.buf.Flush
        (appendAll (newStore emptyFile) [write, write, write]).1.File).1
      ((appendAll (newStore emptyFile) [write, write, write]).1.buf.Flush
        (appendAll (newStore emptyFile) [write, write, write]).1.File).2.1
      rfl rfl (by decide) (by decide)).1,
    by decide⟩

/-- C6, counterexample: from `newStore` on `frameFile` (19 bytes, handle at offset 0),
`Append "abc"` and `Read 0` both return no error; the flush has written the 11-byte frame
over the start of the file, so the store then has size 30, a file of 19 bytes and nothing
pending. -/
theorem size_invariant_fails_on_overwriting_handle :
    ((newStore frameFile).Append abc).2.2.2 = none ∧
      (((newStore frameFile).Append abc).1.Read 0).2 = ReadResult.returned (some abc) none ∧
      (((newStore frameFile).Append abc).1.Read 0).1.size = 30 ∧
      (((newStore frameFile).Append abc).1.Read 0).1.File.data.length = 19 ∧
      (((newStore frameFile).Append abc).1.Read 0).1.buf.buf.length = 0 := by
  decide

/-- C6, amended. Size invariant: in every store reachable from `newStore` on a handle that
writes at the end of its file, by calls of `Append`, `Read` and `ReadAt` that return no
error, the size counter is the length of the backing file plus the number of bytes pending
in the write buffer, and one more such call does not decrease it. -/
theorem size_invariant (s s1 : store) (hr : Reachable s) :
    s.size = s.File.data.length + s.buf.buf.length ∧ (Step s s1 → s.size ≤ s1.size) :=
  ⟨(Reachable.appending hr).2.2.2.1,
    fun hstep => (Step.keeps_appending (Reachable.appending hr) hstep).2⟩

/-- Witness of C6: the store after one append of "Hello World" (size 19, file empty, 19 bytes
pending), and a `Read` from it. -/
theorem size_invariant_witness :
    ((newStore emptyFile).Append write).1.size =
        ((newStore emptyFile).Append write).1.File.data.length +
          ((newStore emptyFile).Append write).1.buf.buf.length ∧
      (Step ((newStore emptyFile).Append write).1 ((((newStore emptyFile).Append write).1).Read 0).1 →
        ((newStore emptyFile).Append write).1.size ≤
          ((((newStore emptyFile).Append write).1).Read 0).1.size) :=
  size_invariant ((newStore emptyFile).Append write).1 ((((newStore emptyFile).Append write).1).Read 0).1
    (Reachable.step (newStore emptyFile) _ (Reachable.init emptyFile (by decide) (by decide))
      (Step.append _ _ write 19 0 (by decide)))


/-- Each of the calls that flush (`Close`, `Read`, `ReadAt`), when it returns no error, leaves
in the file the bytes a successful flush of the buffer leaves there. -/
theorem store.flushed_data {s1 s2 : store}
    (h : s1.Close = (s2, none) ∨
      (∃ pos b, s1.Read pos = (s2, ReadResult.returned b none)) ∨
      (∃ p off p1 n, s1.ReadAt p off = (s2, p1, n, none))) :
    ∃ b1 f1, s1.buf.Flush s1.File = (b1, f1, none) ∧ s2.File.data = f1.data := by
  rcases h with hc | ⟨pos, b, hr⟩ | ⟨p, off, p1, n, hr⟩
  · obtain ⟨b1, f1, hfl, rfl, -⟩ := store.Close_ok hc
    exact ⟨b1, f1, hfl, rfl⟩
  · obtain ⟨b1, f1, hfl, rfl⟩ := store.Read_ok hr
    exact ⟨b1, f1, hfl, rfl⟩
  · obtain ⟨b1, f1, hfl, rfl⟩ := store.ReadAt_ok hr
    exact ⟨b1, f1, hfl, rfl⟩

/-- C7, counterexample: "abc" is appended without error to the store made on `frameFile`
(size 19, handle at offset 0), returning position 19, and the store is closed without error;
the frame has been written over the start of the file, so a new store on the reopened file
has size 19, not the old store's 30, and `Read 19` meets the end of the file. -/
theorem reopen_loses_size_on_overwriting_handle :
    (appendAll (newStore frameFile) [abc]).2 = [(11, 19, none)] ∧
      ((appendAll (newStore frameFile) [abc]).1.Close).2 = none ∧
      (appendAll (newStore frameFile) [abc]).1.size = 30 ∧
      (newStore ((appendAll (newStore frameFile) [abc]).1.Close).1.File.reopen).size = 19 ∧
      ((newStore ((appendAll (newStore frameFile) [abc]).1.Close).1.File.reopen).Read 19).2 =
        ReadResult.returned none (some Error.EOF) := by
  decide

/-- C7, amended. Durability across reopen: after payloads `ps` are appended without error to
a consistent store whose handle writes at the end of its file, the buffer is flushed by a
`Close`, `Read` or `ReadAt` that returns no error, and a new store is made with `newStore`
on an open handle `g` of the same file (a reopened one, or the old handle itself as the test
does), the new store's size is the old store's size, `Read` at each position an append
returned gives that append's payload, and, when the appends started on an empty file, the
first eight bytes at offset 0 decode to the first payload's length. -/
theorem durability_across_reopen (s0 s1 s2 : store) (ps : List (List Byte))
    (rs : List (Nat × Nat × Option Error)) (g : OsFile) (hs : s0.Consistent)
    (hat : s0.File.WritesAtEnd) (hp : ∀ p ∈ ps, p.length ≤ maxAlloc)
    (h : appendAll s0 ps = (s1, rs)) (hok : ∀ r ∈ rs, r.2.2 = none)
    (hflush : s1.Close = (s2, none) ∨
      (∃ pos b, s1.Read pos = (s2, ReadResult.returned b none)) ∨
      (∃ p off p1 n, s1.ReadAt p off = (s2, p1, n, none)))
    (hg : g.data = s2.File.data) (hgo : g.closed = false) :
    (newStore g).size = s1.size ∧
    (∀ (i : Nat) (p : List Byte), ps[i]? = some p → ∃ n pos : Nat, rs[i]? = some (n, pos, none) ∧
      ((newStore g).Read pos).2 = ReadResult.returned (some p) none) ∧
    (s0.size = 0 → ∀ p : List Byte, ps[0]? = some p →
      ((newStore g).ReadAt (List.replicate 8 0) 0).2.2 = (8, none) ∧
      Uint64 ((newStore g).ReadAt (List.replicate 8 0) 0).2.1 = p.length) := by
  have hsa := store.appending_of_consistent hs hat
  obtain ⟨hs1, hc1, hsz1, -, hidx⟩ := appendAll_ok ps _ _ _ hsa h hok
  obtain ⟨b1, f1, hfl, hd2⟩ := store.flushed_data hflush
  obtain ⟨hdata, -, hlen, hmax, -, -⟩ := store.flush_appending hs1 hfl
  have hrd : g.data = s1.content := by rw [hg, hd2, hdata]
  have hrl : g.data.length = s1.size := by
    rw [hrd, store.content_length hs1]
  have hgd : g.data = s0.content ++ (ps.map frame).flatten := by rw [hrd, hc1]
  have hfl0 : (newStore g).buf.Flush (newStore g).File = ({ buf := [], err := none }, g, none) := by
    simp [newStore, NewWriter, Writer.Flush]
  have hmax64 : maxFileSize < 2 ^ 64 := by simp [maxFileSize]
  refine ⟨?_, ?_, ?_⟩
  · show g.data.length % 2 ^ 64 = s1.size
    rw [hrl, Nat.mod_eq_of_lt (by omega)]
  · intro i p hi
    refine ⟨lenWidth + p.length, s0.size + framesSize (ps.take i), hidx i p hi, ?_⟩
    have hsplit : g.data =
        (s0.content ++ ((ps.take i).map frame).flatten) ++ frame p ++
          ((ps.drop (i + 1)).map frame).flatten := by
      rw [hgd, frames_split ps i p hi]
      simp only [List.append_assoc]
    have := store.Read_flushed hfl0 hgo (by rw [hrl]; exact hmax)
      (hp p (List.getElem?_mem hi)) hsplit
    rw [List.length_append, frames_length, store.content_length hsa] at this
    exact this
  · intro h0 p hp0
    have hc0 : s0.content = [] := by
      apply List.eq_nil_of_length_eq_zero
      rw [store.content_length hsa, h0]
    have hsplit := frames_split ps 0 p hp0
    simp only [List.take_zero, List.map_nil, List.flatten_nil, List.nil_append] at hsplit
    have hdat : g.data = PutUint64 (p.length % 2 ^ 64) ++
        (p ++ ((ps.drop (0 + 1)).map frame).flatten) := by
      rw [hgd, hc0, List.nil_append, hsplit, frame, List.append_assoc]
    have hpl : p.length < 2 ^ 64 := by
      have := hp p (List.getElem?_mem hp0)
      simp only [maxAlloc] at this
      omega
    have hra := @OsFile.ReadAt_eq g (List.replicate 8 (0 : Byte)) 0 hgo
      (by rw [hdat]; simp [PutUint64_length])
    simp only [Nat.cast_zero, List.length_replicate, List.drop_zero] at hra
    have htake : List.take 8 g.data = PutUint64 (p.length % 2 ^ 64) := by
      rw [hdat]
      exact List.take_left' (PutUint64_length _)
    unfold store.ReadAt
    rw [hfl0]
    dsimp only
    rw [hra, htake]
    refine ⟨rfl, ?_⟩
    dsimp only
    rw [Uint64_PutUint64, Nat.mod_mod, Nat.mod_eq_of_lt hpl]

/-- Witness of C7: three appends of "Hello World", a `Close`, a new store on the reopened
file: its size is 57, `Read 19` returns "Hello World", the first eight bytes decode to 11. -/
theorem durability_across_reopen_witness :
    (newStore ((appendAll (newStore emptyFile) [write, write, write]).1.Close).1.File.reopen).size
      = 57 ∧
    ((newStore ((appendAll (newStore emptyFile) [write, write, write]).1.Close).1.File.reopen).Read
      19).2 = ReadResult.returned (some write) none ∧
    Uint64 ((newStore ((appendAll (newStore emptyFile) [write, write, write]).1.Close).1.File.reopen).ReadAt
      (List.replicate 8 0) 0).2.1 = 11 :=
  have h := durability_across_reopen (newStore emptyFile)
    (appendAll (newStore emptyFile) [write, write, write]).1
    ((appendAll (newStore emptyFile) [write, write, write]).1.Close).1
    [write, write, write] (appendAll (newStore emptyFile) [write, write, write]).2
    ((appendAll (newStore emptyFile) [write, write, write]).1.Close).1.File.reopen
    (by decide) (by decide) (by decide) rfl (by decide) (Or.inl (by decide)) rfl rfl
  ⟨h.1, by decide, (h.2.2 rfl write rfl).2⟩

/-- C8, evaluated: on a store over a file holding the single frame of "Hello World", `Read 8`
finds the bytes "Hello Wo" where a length prefix would be; the length they decode to ends far
past the 19-byte file, and the call panics in `make` instead of returning an error. -/
theorem read_malformed_frame_panics :
    8 + 8 + Uint64 (((frame write).drop 8).take 8) > (frame write).length ∧
      ((newStore { data := frame write, closed := false }).Read 8).2 = ReadResult.panicked := by
  decide

/-- C9, evaluated: on a store over a file of eight `0xFF` bytes the prefix at position 0
decodes to `2 ^ 64 - 1`, and `Read 0` panics in `make` instead of returning. -/
theorem read_huge_length_panics :
    Uint64 (List.replicate 8 (255 : Byte)) = 2 ^ 64 - 1 ∧
      ((newStore { data := List.replicate 8 255, closed := false }).Read 0).2 =
        ReadResult.panicked := by
  decide

/-- C10, counterexample: the store made on `frameFile` with the frame of "abc" pending (11
bytes) is closed without error; the frame is written over the start of the file, which is
19 bytes long before and after, and is not the old content followed by the pending bytes. -/
theorem close_overwrites_on_overwriting_handle :
    ((newStore frameFile).Append abc).1.buf.buf = frame abc ∧
      (((newStore frameFile).Append abc).1.Close).2 = none ∧
      ((newStore frameFile).Append abc).1.File.data.length = 19 ∧
      (((newStore frameFile).Append abc).1.Close).1.File.data.length = 19 ∧
      (((newStore frameFile).Append abc).1.Close).1.File.data ≠
        ((newStore frameFile).Append abc).1.File.data ++
          ((newStore frameFile).Append abc).1.buf.buf := by
  decide

/-- C10, amended. Close flushes: on a store whose handle writes at the end of its file, a
`Close` that returns no error leaves the file's content equal to its content before followed
by the bytes pending in the write buffer; on a consistent store the file's length is then the
store's size; and when bytes were pending the file is strictly longer than before. -/
theorem close_flushes (s s1 : store) (hat : s.File.WritesAtEnd) (h : s.Close = (s1, none)) :
    s1.File.data = s.File.data ++ s.buf.buf ∧
      (s.Consistent → s1.File.data.length = s1.size) ∧
      (s.buf.buf ≠ [] → s.File.data.length < s1.File.data.length) := by
  obtain ⟨b1, f1, hfl, rfl, -⟩ := store.Close_ok h
  obtain ⟨-, -, hd, -, -, -⟩ := Writer.Flush_ok hat hfl
  refine ⟨hd, ?_, ?_⟩
  · intro hs
    exact (store.flush_appending (store.appending_of_consistent hs hat) hfl).2.2.1
  · intro hne
    have : 0 < s.buf.buf.length := List.length_pos.2 hne
    show s.File.data.length < f1.data.length
    rw [hd, List.length_append]
    omega

/-- Witness of C10: after one buffered append of "Hello World" the file is empty; `Close`
leaves 19 bytes in it. -/
theorem close_flushes_witness :
    ((newStore emptyFile).Append write).1.File.data.length = 0 ∧
      ((((newStore emptyFile).Append write).1).Close).1.File.data.length = 19 ∧
      ((newStore emptyFile).Append write).1.File.data.length <
        ((((newStore emptyFile).Append write).1).Close).1.File.data.length :=
  ⟨by decide, by decide,
    (close_flushes ((newStore emptyFile).Append write).1
      ((((newStore emptyFile).Append write).1).Close).1 (by decide) (by decide)).2.2
      (by decide)⟩


/-! ## Appends and the write buffer -/

theorem Writer.Write_fits {b : Writer} {f : OsFile} {p : List Byte} (he : b.err = none)
    (hfit : p.length ≤ b.Available) :
    b.Write f p = ({ buf := b.buf ++ p, err := none }, f, p.length, none) := by
  have hloop : Writer.writeLoop 2 b f p 0 = (b, f, p, 0) := by
    rw [Writer.writeLoop, if_neg (by omega)]
  unfold Writer.Write
  rw [hloop]
  dsimp only
  rw [he]
  dsimp only
  rw [Nat.min_eq_right hfit, List.take_length, Nat.zero_add]

theorem store.Append_fits {s : store} {p : List Byte} (he : s.buf.err = none)
    (hfit : s.buf.buf.length + 8 + p.length ≤ defaultBufSize) :
    (s.Append p).1.File = s.File ∧ (s.Append p).1.buf.buf = s.buf.buf ++ frame p ∧
      (s.Append p).2.2.2 = none := by
  have h1 : s.buf.Write s.File (PutUint64 (p.length % 2 ^ 64)) =
      ({ buf := s.buf.buf ++ PutUint64 (p.length % 2 ^ 64), err := none }, s.File, 8, none) :=
    Writer.Write_fits he (by simp only [PutUint64_length, Writer.Available]; omega)
  have h2 : Writer.Write { buf := s.buf.buf ++ PutUint64 (p.length % 2 ^ 64), err := none }
      s.File p =
      ({ buf := s.buf.buf ++ PutUint64 (p.length % 2 ^ 64) ++ p, err := none }, s.File,
        p.length, none) :=
    Writer.Write_fits rfl (by
      simp only [Writer.Available, List.length_append, PutUint64_length]; omega)
  unfold store.Append
  dsimp only
  rw [h1]
  dsimp only
  rw [h2]
  exact ⟨rfl, by simp [frame], rfl⟩

/-- An append that returns no error and whose frame does not fit the buffer beside the pending
bytes makes the file longer. -/
theorem store.Append_overflows_buffer {s s1 : store} {p : List Byte} {n pos : Nat}
    (hs : s.Appending) (hbig : defaultBufSize < s.buf.buf.length + 8 + p.length)
    (h : s.Append p = (s1, n, pos, none)) : s.File.data.length < s1.File.data.length := by
  obtain ⟨hs1, -, -, -, hsz, -⟩ := store.Append_appending hs h
  obtain ⟨-, hcap, -, hsize, -⟩ := hs1
  have hsize0 := hs.2.2.2.1
  have hw : lenWidth = 8 := rfl
  omega

/-- C11, counterexample: a payload of 4089 bytes appended to a new store on an empty file
does not fit the 4096-byte buffer after its 8-byte prefix; `Append` returns no error and the
file is no longer what it was before the call. -/
theorem append_large_payload_reaches_file :
    ((newStore emptyFile).Append (List.replicate 4089 0)).2.2.2 = none ∧
      ((newStore emptyFile).Append (List.replicate 4089 0)).1.File.data ≠
        (newStore emptyFile).File.data := by
  have hs : (newStore emptyFile).Appending := by decide
  have hlen : (List.replicate 4089 (0 : Byte)).length = 4089 := List.length_replicate _ _
  generalize List.replicate 4089 (0 : Byte) = p at hlen ⊢
  have hsucc := store.Append_succeeds (s := newStore emptyFile) (p := p) hs rfl (by
    rw [hlen]; decide)
  refine ⟨hsucc, ?_⟩
  obtain ⟨s1, n, pos, e, ha⟩ : ∃ s1 n pos e, (newStore emptyFile).Append p = (s1, n, pos, e) :=
    ⟨_, _, _, _, rfl⟩
  rw [ha] at hsucc ⊢
  dsimp only at hsucc ⊢
  subst hsucc
  have hlt := store.Append_overflows_buffer hs (by rw [hlen]; decide) ha
  intro hcon
  rw [hcon] at hlt
  exact Nat.lt_irrefl _ hlt

/-- C11, amended. Append defers the physical write while the frame fits the write buffer.
For an `Append p` that returns no error: when the pending bytes plus the frame are at most
4096 bytes, the file's bytes and handle are unchanged and the frame is added to the pending
bytes, and a later `Close`, `Read` or `ReadAt` that returns no error writes the pending
bytes and the frame to the file in one write at the handle's write position, which leaves
the old file followed by those bytes when the handle writes at the end of the file; when
they exceed 4096 bytes, on a consistent store whose handle writes at the end of its file,
`Append` itself has written to the file, which is longer after the call. -/
theorem append_defers_write_when_frame_fits (s s1 : store) (p : List Byte) (n pos : Nat)
    (h : s.Append p = (s1, n, pos, none)) :
    (s.buf.buf.length + 8 + p.length ≤ defaultBufSize →
      s1.File = s.File ∧ s1.buf.buf = s.buf.buf ++ frame p ∧
      ∀ s2 : store,
        (s1.Close = (s2, none) ∨
          (∃ q b, s1.Read q = (s2, ReadResult.returned b none)) ∨
          (∃ q off q1 m, s1.ReadAt q off = (s2, q1, m, none))) →
        s2.File.data = (s.File.writeBytes (s.buf.buf ++ frame p)).data ∧
          (s.File.WritesAtEnd → s2.File.data = s.File.data ++ s.buf.buf ++ frame p)) ∧
    (defaultBufSize < s.buf.buf.length + 8 + p.length → s.Consistent → s.File.WritesAtEnd →
      s.File.data.length < s1.File.data.length) := by
  refine ⟨?_, ?_⟩
  · intro hfit
    have he : s.buf.err = none := store.Append_err_none h
    obtain ⟨hf, hb, -⟩ := store.Append_fits (p := p) he hfit
    rw [h] at hf hb
    dsimp only at hf hb
    refine ⟨hf, hb, ?_⟩
    intro s2 hflush
    obtain ⟨b1, f1, hfl, hd2⟩ := store.flushed_data hflush
    obtain ⟨-, -, hf1, -, -⟩ := Writer.Flush_done hfl
    have hne : ¬ (s.buf.buf ++ frame p).length = 0 := by
      simp only [List.length_append, frame_length, lenWidth]
      omega
    have hd : s2.File.data = (s.File.writeBytes (s.buf.buf ++ frame p)).data := by
      rw [hd2, hf1, hf, hb, OsFile.flushed, if_neg hne]
    refine ⟨hd, ?_⟩
    intro hat
    rw [hd, (OsFile.writeBytes_atEnd _ hat).1, List.append_assoc]
  · intro hbig hs hat
    exact store.Append_overflows_buffer (store.appending_of_consistent hs hat) hbig h

/-- Witness of C11 as amended: one append of "Hello World" to a new store leaves the file
empty and 19 bytes pending. -/
theorem append_defers_write_when_frame_fits_witness :
    ((newStore emptyFile).Append write).1.File = (newStore emptyFile).File ∧
      ((newStore emptyFile).Append write).1.buf.buf = (newStore emptyFile).buf.buf ++ frame write :=
  have h := (append_defers_write_when_frame_fits (newStore emptyFile)
    ((newStore emptyFile).Append write).1 write 19 0 (by decide)).1 (by decide)
  ⟨h.1, h.2.1⟩

/-- C12, counterexample: the store made on `frameFile` with the frame of "abc" pending has
size 30; `ReadAt` with a buffer of 8 bytes at offset 19 (and `19 + 8 ≤ 30`) flushes the frame
over the start of the 19-byte file and then reads nothing: it returns 0 and `EOF`. -/
theorem readAt_fails_on_overwriting_handle :
    ((newStore frameFile).Append abc).1.size = 30 ∧
      (((newStore frameFile).Append abc).1.ReadAt (List.replicate 8 0) 19).2 =
        (List.replicate 8 0, 0, some Error.EOF) := by
  decide

/-- C12, amended. ReadAt is a raw positional read that sees unflushed data: on a consistent
store with an open handle that writes at the end of its file and a size within the range of
a file offset, `ReadAt` with a buffer of length `m` at an offset `off` with `off + m ≤ size`
returns `m` and no error, and the buffer holds bytes `[off, off + m)` of the file's bytes
followed by the pending bytes. -/
theorem readAt_sees_logical_content (s : store) (p : List Byte) (off : Nat)
    (hs : s.Consistent) (hat : s.File.WritesAtEnd) (ho : s.File.closed = false)
    (hmax : s.size ≤ maxFileSize) (hoff : off + p.length ≤ s.size) :
    (s.ReadAt p (off : Int)).2 = ((s.content.drop off).take p.length, p.length, none) := by
  obtain ⟨he, hcap, hlen, hsize⟩ := hs
  obtain ⟨hfd, -, hfc⟩ := OsFile.flushed_atEnd s.buf.buf hat
  unfold store.ReadAt
  rw [Writer.Flush_eq he ho hat (by omega)]
  dsimp only
  rw [OsFile.ReadAt_eq (hfc.trans ho) (by rw [hfd, List.length_append]; omega), hfd]
  rfl

/-- Witness of C12: after two buffered appends of "Hello World", a raw read of 11 bytes at
offset 27 returns the second payload, and a read of 8 bytes at offset 14 straddles the two
frames. -/
theorem readAt_sees_logical_content_witness :
    ((appendAll (newStore emptyFile) [write, write]).1.ReadAt (List.replicate 11 0) 27).2 =
        (write, 11, none) ∧
      ((appendAll (newStore emptyFile) [write, write]).1.ReadAt (List.replicate 8 0) 14).2 =
        ([87, 111, 114, 108, 100, 0, 0, 0], 8, none) ∧
      ((appendAll (newStore emptyFile) [write, write]).1.ReadAt (List.replicate 11 0)
          ((27 : Nat) : Int)).2 =
        ((((appendAll (newStore emptyFile) [write, write]).1.content.drop 27).take
          (List.replicate 11 (0 : Byte)).length), (List.replicate 11 (0 : Byte)).length, none) :=
  ⟨by decide, by decide,
    readAt_sees_logical_content (appendAll (newStore emptyFile) [write, write]).1
      (List.replicate 11 0) 27 (by decide) (by decide) (by decide) (by decide) (by decide)⟩

/-- C14. Index entry width: `entWidth` is `offWidth + posWidth`, which is 12 bytes, with
`offWidth = 4` and `posWidth = 8`, and `posWidth` is the store's `lenWidth`, 8. -/
theorem index_entry_width :
    entWidth = offWidth + posWidth ∧ entWidth = 12 ∧ offWidth = 4 ∧ posWidth = 8 ∧
      posWidth = lenWidth ∧ lenWidth = 8 := by
  decide

/-- C15. Failed Append leaves the counter untouched: when `Append` returns an error, it
returns frame size 0 and position 0, and the store's size is what it was before the call. -/
theorem failed_append_keeps_size (s s1 : store) (p : List Byte) (n pos : Nat) (e : Error)
    (h : s.Append p = (s1, n, pos, some e)) : n = 0 ∧ pos = 0 ∧ s1.size = s.size := by
  unfold store.Append at h
  dsimp only at h
  rcases hw1 : s.buf.Write s.File (PutUint64 (p.length % 2 ^ 64)) with ⟨b1, f1, w1, e1⟩
  rw [hw1] at h
  cases e1 with
  | some e0 =>
    simp only [Prod.mk.injEq] at h
    obtain ⟨rfl, rfl, rfl, -⟩ := h
    exact ⟨rfl, rfl, rfl⟩
  | none =>
    dsimp only at h
    rcases hw2 : b1.Write f1 p with ⟨b2, f2, w2, e2⟩
    rw [hw2] at h
    cases e2 with
    | some e0 =>
      simp only [Prod.mk.injEq] at h
      obtain ⟨rfl, rfl, rfl, -⟩ := h
      exact ⟨rfl, rfl, rfl⟩
    | none => simp at h


/-- Witness of C15: a store is closed, "Hello World" is appended (buffered), a `Read` fails
to flush to the closed handle and leaves the writer's error set; the next `Append` fails on
the length prefix, returns `(0, 0)` and keeps the size at 19. -/
theorem failed_append_keeps_size_witness :
    (((((newStore emptyFile).Close).1.Append write).1.Read 0).1.Append write).2 =
        (0, 0, some Error.ErrClosed) ∧
      ((0 : Nat) = 0 ∧ (0 : Nat) = 0 ∧
        (((((newStore emptyFile).Close).1.Append write).1.Read 0).1.Append write).1.size =
          ((((newStore emptyFile).Close).1.Append write).1.Read 0).1.size) ∧
      ((((newStore emptyFile).Close).1.Append write).1.Read 0).1.size = 19 :=
  ⟨by decide,
    failed_append_keeps_size ((((newStore emptyFile).Close).1.Append write).1.Read 0).1
      (((((newStore emptyFile).Close).1.Append write).1.Read 0).1.Append write).1 write 0 0
      Error.ErrClosed (by decide),
    by decide⟩

end Log

namespace Server

/-! ## The in-memory log -/

theorem Log.Read_lt {c : Log} {offset : Nat} (h : offset < c.records.length) :
    c.Read offset = (c, c.records.get ⟨offset, h⟩, none) := by
  unfold Log.Read
  rw [dif_neg (by omega)]

theorem Log.Read_ge {c : Log} {offset : Nat} (h : offset ≥ c.records.length) :
    c.Read offset = (c, { Value := "", Offset := 0 }, some Error.ErrOffsetNotFound) := by
  unfold Log.Read
  rw [dif_pos h]

theorem Log.Read_log (c : Log) (offset : Nat) : (c.Read offset).1 = c := by
  rcases Nat.lt_or_ge offset c.records.length with h | h
  · rw [Log.Read_lt h]
  · rw [Log.Read_ge h]

theorem LogReachable.offsetsMatch {c : Log} (h : LogReachable c) : c.OffsetsMatch := by
  induction h with
  | init =>
    intro i r hr
    simp [NewLog] at hr
  | step c c1 _ hstep ih =>
    cases hstep with
    | append record =>
      intro i r hr
      simp only [Log.Append] at hr
      rcases Nat.lt_or_ge i c.records.length with hi | hi
      · rw [List.getElem?_append_left hi] at hr
        exact ih i r hr
      · rw [List.getElem?_append_right hi] at hr
        rcases Nat.eq_zero_or_pos (i - c.records.length) with h0 | hpos
        · rw [h0] at hr
          simp only [List.getElem?_cons_zero, Option.some.injEq] at hr
          subst hr
          simp only
          omega
        · have : [({ record with Offset := c.records.length } : Record)][i - c.records.length]?
              = none := by
            rw [List.getElem?_eq_none_iff, List.length_singleton]
            omega
          rw [this] at hr
          cases hr
    | read offset =>
      rw [Log.Read_log]
      exact ih

/-- C16. In-memory log append/read round trip: on a log holding `n` records (none
included), `Append r` returns offset `n` and no error whatever `r.Offset` was, `Read n` then
returns the record with `r`'s value and offset `n`, and for every `i < n` `Read i` returns
after the append what it returned before. -/
theorem server_log_append_read_round_trip (c : Log) (r : Record) :
    (c.Append r).2 = (c.records.length, none) ∧
      ((c.Append r).1.Read c.records.length).2 =
        ({ Value := r.Value, Offset := c.records.length }, none) ∧
      ∀ i : Nat, i < c.records.length → ((c.Append r).1.Read i).2 = (c.Read i).2 := by
  have hlen : (c.Append r).1.records.length = c.records.length + 1 := by
    simp [Log.Append]
  refine ⟨rfl, ?_, ?_⟩
  · rw [Log.Read_lt (by rw [hlen]; omega)]
    simp [Log.Append, List.get_eq_getElem]
  · intro i hi
    rw [Log.Read_lt (by rw [hlen]; omega), Log.Read_lt hi]
    simp only [Log.Append, List.get_eq_getElem]
    rw [List.getElem_append_left hi]

/-- Witness of C16: on the new, empty log a record carrying offset 5 is appended, gets offset
0 and is read back at 0 with offset 0; a second record carrying offset 99 gets offset 1 and
leaves `Read 0` unchanged. -/
theorem server_log_append_read_round_trip_witness :
    (NewLog.Append { Value := "a", Offset := 5 }).2 = (0, none) ∧
      ((NewLog.Append { Value := "a", Offset := 5 }).1.Read 0).2 =
        ({ Value := "a", Offset := 0 }, none) ∧
      (((NewLog.Append { Value := "a", Offset := 5 }).1.Append
          { Value := "b", Offset := 99 }).1.Read 1).2 = ({ Value := "b", Offset := 1 }, none) ∧
      (((NewLog.Append { Value := "a", Offset := 5 }).1.Append
          { Value := "b", Offset := 99 }).1.Read 0).2 =
        ((NewLog.Append { Value := "a", Offset := 5 }).1.Read 0).2 :=
  ⟨(server_log_append_read_round_trip NewLog { Value := "a", Offset := 5 }).1,
    (server_log_append_read_round_trip NewLog { Value := "a", Offset := 5 }).2.1,
    (server_log_append_read_round_trip (NewLog.Append { Value := "a", Offset := 5 }).1
      { Value := "b", Offset := 99 }).2.1,
    (server_log_append_read_round_trip (NewLog.Append { Value := "a", Offset := 5 }).1
      { Value := "b", Offset := 99 }).2.2 0 (by decide)⟩

/-- C17. In-memory log offset invariant: in every log reachable from `NewLog` by `Append`
and `Read` calls, the record at slice index `i` has `Offset` equal to `i`, and every `Read`
that returns no error returns a record whose `Offset` is the requested offset. -/
theorem server_log_offset_invariant (c : Log) (h : LogReachable c) :
    (∀ (i : Nat) (r : Record), c.records[i]? = some r → r.Offset = i) ∧
      ∀ (offset : Nat) (r : Record), (c.Read offset).2 = (r, none) → r.Offset = offset := by
  have hm := LogReachable.offsetsMatch h
  refine ⟨hm, ?_⟩
  intro offset r hr
  rcases Nat.lt_or_ge offset c.records.length with hlt | hge
  · rw [Log.Read_lt hlt] at hr
    simp only [Prod.mk.injEq, and_true] at hr
    apply hm offset r
    rw [← hr, List.get_eq_getElem]
    exact List.getElem?_eq_getElem hlt
  · rw [Log.Read_ge hge] at hr
    simp at hr

/-- Witness of C17: the log after `Append` of a record carrying offset 5, a `Read`, and an
`Append` of a record carrying offset 99 holds offsets 0 and 1. -/
theorem server_log_offset_invariant_witness :
    (((NewLog.Append { Value := "a", Offset := 5 }).1.Read 0).1.Append
        { Value := "b", Offset := 99 }).1.records =
        [{ Value := "a", Offset := 0 }, { Value := "b", Offset := 1 }] ∧
      ∀ (offset : Nat) (r : Record),
        ((((NewLog.Append { Value := "a", Offset := 5 }).1.Read 0).1.Append
          { Value := "b", Offset := 99 }).1.Read offset).2 = (r, none) → r.Offset = offset :=
  ⟨by decide,
    (server_log_offset_invariant _
      (LogReachable.step _ _
        (LogReachable.step _ _
          (LogReachable.step _ _ LogReachable.init
            (LogStep.append NewLog { Value := "a", Offset := 5 }))
          (LogStep.read _ 0))
        (LogStep.append _ { Value := "b", Offset := 99 }))).2⟩

/-- C18. In-memory log not-found: on a log holding `n` records, `Read offset` returns
`ErrOffsetNotFound` with the zero `Record` exactly when `offset ≥ n`; on a new log it always
does; and `Read` leaves the stored records as they were. -/
theorem server_log_read_not_found (c : Log) (offset : Nat) :
    ((c.Read offset).2 = ({ Value := "", Offset := 0 }, some Error.ErrOffsetNotFound) ↔
        offset ≥ c.records.length) ∧
      (NewLog.Read offset).2 = ({ Value := "", Offset := 0 }, some Error.ErrOffsetNotFound) ∧
      (c.Read offset).1.records = c.records := by
  refine ⟨⟨?_, ?_⟩, ?_, ?_⟩
  · intro h
    rcases Nat.lt_or_ge offset c.records.length with hlt | hge
    · rw [Log.Read_lt hlt] at h
      simp at h
    · exact hge
  · intro hge
    rw [Log.Read_ge hge]
  · rw [Log.Read_ge (c := NewLog) (Nat.zero_le _)]
  · rw [Log.Read_log]

end Server

namespace Log

/-! ## The index -/

theorem PutUint32_length (v : Nat) : (PutUint32 v).length = 4 := rfl

theorem Uint32_PutUint32 (v : Nat) : Uint32 (PutUint32 v) = v % 2 ^ 32 := by
  simp only [Uint32, PutUint32, toByte, List.take, List.foldl]
  omega

theorem indexEntry_length (e : Nat × Nat) : (indexEntry e).length = entWidth := rfl

theorem entries_length (es : List (Nat × Nat)) :
    ((es.map indexEntry).flatten).length = entWidth * es.length := by
  induction es with
  | nil => rfl
  | cons e es ih =>
    simp only [List.map_cons, List.flatten_cons, List.length_append, indexEntry_length, ih,
      List.length_cons]
    rw [Nat.mul_succ]
    omega

theorem entries_split (es : List (Nat × Nat)) (j : Nat) (e : Nat × Nat) (h : es[j]? = some e) :
    (es.map indexEntry).flatten =
      ((es.take j).map indexEntry).flatten ++ indexEntry e ++
        ((es.drop (j + 1)).map indexEntry).flatten := by
  induction es generalizing j with
  | nil => simp at h
  | cons q qs ih =>
    cases j with
    | zero =>
      simp only [List.getElem?_cons_zero, Option.some.injEq] at h
      subst h
      simp
    | succ k =>
      simp only [List.getElem?_cons_succ] at h
      simp only [List.map_cons, List.flatten_cons, List.take_succ_cons, List.drop_succ_cons,
        ih k h, List.append_assoc]

theorem index.Write_holds {i : index} {es : List (Nat × Nat)} {o p : Nat} (hi : i.Holds es)
    (hcap : i.size + entWidth ≤ i.maxCapacity) :
    (i.Write o p).2 = none ∧ (i.Write o p).1.Holds (es ++ [(o, p)]) ∧
      (i.Write o p).1.maxCapacity = i.maxCapacity ∧ (i.Write o p).1.size = i.size + entWidth := by
  obtain ⟨hsz, hmap, htake⟩ := hi
  unfold index.Write
  rw [if_neg (by omega)]
  refine ⟨rfl, ⟨?_, ?_, ?_⟩, rfl, rfl⟩
  · simp only [List.length_append, List.length_singleton]
    rw [Nat.mul_succ, hsz]
  · simp only [List.length_append, List.length_take, List.length_drop, PutUint32_length,
      PutUint64_length]
    have hw : entWidth = 12 := rfl
    omega
  · have hl : (List.take i.size i.mmap).length = i.size := by
      rw [List.length_take]; omega
    have hl2 : (List.take i.size i.mmap ++ (PutUint32 o ++ PutUint64 p)).length =
        i.size + entWidth := by
      rw [List.length_append, hl]; rfl
    dsimp only
    rw [List.take_left' hl2, htake]
    simp [indexEntry]

theorem index.Read_entry {i : index} {es : List (Nat × Nat)} {j : Nat} {e : Nat × Nat}
    (hi : i.Holds es) (he : es[j]? = some e) :
    i.Read (j : Int) = (e.1 % 2 ^ 32, e.2 % 2 ^ 64, none) := by
  obtain ⟨hsz, hmap, htake⟩ := hi
  have hj : j < es.length := (List.getElem?_eq_some_iff.1 he).1
  have hw : entWidth = 12 := rfl
  have hsplit := entries_split es j e he
  have hpre : (((es.take j).map indexEntry).flatten).length = j * entWidth := by
    rw [entries_length, List.length_take, Nat.min_eq_left (by omega), Nat.mul_comm]
  have hmm : i.mmap = ((es.take j).map indexEntry).flatten ++
      (PutUint32 e.1 ++ (PutUint64 e.2 ++
        (((es.drop (j + 1)).map indexEntry).flatten ++ i.mmap.drop i.size))) := by
    conv_lhs => rw [← List.take_append_drop i.size i.mmap, htake, hsplit]
    simp only [indexEntry, List.append_assoc]
  have hsz1 : i.size = 12 * es.length := hsz
  have hne : ¬ ((j : Int) = -1) := by omega
  have hin : ¬ (j * entWidth ≥ i.size) := by rw [hw]; omega
  unfold index.Read
  rw [if_neg (by omega), if_neg (by omega)]
  simp only [hne, if_false, Int.toNat_ofNat]
  rw [if_neg hin]
  have h4 : List.take offWidth (List.drop (j * entWidth) i.mmap) = PutUint32 e.1 := by
    rw [hmm, List.drop_left' hpre]
    exact List.take_left' rfl
  have h8 : List.take posWidth (List.drop (j * entWidth + offWidth) i.mmap) = PutUint64 e.2 := by
    rw [hmm, ← List.drop_drop, List.drop_left' hpre,
      List.drop_left' (show (PutUint32 e.1).length = offWidth from rfl)]
    exact List.take_left' rfl
  rw [h4, h8, Uint32_PutUint32, Uint64_PutUint64]

theorem index.writeAll_holds (ps : List Nat) :
    ∀ (i : index) (es : List (Nat × Nat)) (n : Nat), i.Holds es →
      i.size + entWidth * ps.length ≤ i.maxCapacity →
      (∀ e ∈ (i.writeAll n ps).2, e = none) ∧
        (i.writeAll n ps).1.Holds (es ++ ps.enumFrom n) := by
  induction ps with
  | nil =>
    intro i es n hi _
    simp only [index.writeAll, List.enumFrom_nil, List.append_nil]
    exact ⟨fun e he => by simp at he, hi⟩
  | cons p ps ih =>
    intro i es n hi hcap
    have hw : entWidth = 12 := rfl
    simp only [List.length_cons, Nat.mul_succ] at hcap
    obtain ⟨hnone, hholds, hmax, hsize⟩ := index.Write_holds (o := n) (p := p) hi (by omega)
    rw [index.writeAll]
    rcases hwr : i.Write n p with ⟨i1, e1⟩
    rw [hwr] at hnone hholds hmax hsize
    dsimp only at hnone hholds hmax hsize ⊢
    obtain ⟨hall, hfin⟩ := ih i1 (es ++ [(n, p)]) (n + 1) hholds (by rw [hsize, hmax]; omega)
    rcases hrest : i1.writeAll (n + 1) ps with ⟨i2, es2⟩
    rw [hrest] at hall hfin
    dsimp only at hall hfin ⊢
    refine ⟨?_, ?_⟩
    · intro e he
      rcases List.mem_cons.1 he with rfl | he
      · exact hnone
      · exact hall e he
    · simpa [List.enumFrom_cons, List.append_assoc] using hfin

theorem newIndex_holds (C : Nat) : (newIndex [] C).Holds [] := by
  refine ⟨rfl, ?_, rfl⟩
  simp [newIndex]

theorem enumFrom_zero_get (ps : List Nat) (j p : Nat) (h : ps[j]? = some p) :
    (ps.enumFrom 0)[j]? = some (j, p) := by
  rw [List.getElem?_enumFrom, h]
  simp

/-- C13. Index round trip: after `Write(i, pos_i)` for `i = 0 .. k-1` on a new index whose
capacity holds the `k ≥ 1` entries (offsets within `uint32`, positions within `uint64`),
every write returns no error, `Read(i)` returns `(i, pos_i)` for each `i < k`, `Read(-1)`
returns `(k-1, pos_(k-1))`, and `Read(k)` fails with not-found. -/
theorem index_round_trip (C : Nat) (ps : List Nat) (hk : 1 ≤ ps.length)
    (hcap : entWidth * ps.length ≤ C) (hoff : ps.length ≤ 2 ^ 32)
    (hpos : ∀ p ∈ ps, p < 2 ^ 64) :
    (∀ e ∈ ((newIndex [] C).writeAll 0 ps).2, e = none) ∧
      (∀ (i p : Nat), ps[i]? = some p →
        ((newIndex [] C).writeAll 0 ps).1.Read (i : Int) = (i, p, none)) ∧
      (∀ p : Nat, ps[ps.length - 1]? = some p →
        ((newIndex [] C).writeAll 0 ps).1.Read (-1) = (ps.length - 1, p, none)) ∧
      (((newIndex [] C).writeAll 0 ps).1.Read (ps.length : Int)).2.2 =
        some IndexError.notFound := by
  have hw : entWidth = 12 := rfl
  obtain ⟨hall, hholds⟩ := index.writeAll_holds ps (newIndex [] C) [] 0 (newIndex_holds C)
    (by simp only [newIndex, List.length_nil]; omega)
  rw [List.nil_append] at hholds
  have hsz : ((newIndex [] C).writeAll 0 ps).1.size = entWidth * ps.length := by
    rw [hholds.1, List.enumFrom_length]
  have hread : ∀ (i p : Nat), ps[i]? = some p →
      ((newIndex [] C).writeAll 0 ps).1.Read (i : Int) = (i, p, none) := by
    intro i p hi
    have hil : i < ps.length := (List.getElem?_eq_some_iff.1 hi).1
    rw [index.Read_entry hholds (enumFrom_zero_get ps i p hi)]
    dsimp only
    rw [Nat.mod_eq_of_lt (by omega), Nat.mod_eq_of_lt (hpos p (List.getElem?_mem hi))]
  have hsz12 : ((newIndex [] C).writeAll 0 ps).1.size = 12 * ps.length := hsz
  have h1 : ¬ ((newIndex [] C).writeAll 0 ps).1.size = 0 := by omega
  refine ⟨hall, hread, ?_, ?_⟩
  · intro p hp
    rw [← hread (ps.length - 1) p hp]
    have h2 : ¬ ((-1 : Int) < -1) := by omega
    have h3 : ¬ (((ps.length - 1 : Nat) : Int) < -1) := by omega
    have h4 : ¬ (((ps.length - 1 : Nat) : Int) = -1) := by omega
    have h5 : ((newIndex [] C).writeAll 0 ps).1.size / entWidth - 1 = ps.length - 1 := by
      rw [hsz12, hw]; omega
    unfold index.Read
    simp only [h1, h2, h3, h4, h5, if_false, ↓reduceIte, Int.toNat_ofNat]
  · have h2 : ¬ ((ps.length : Int) < -1) := by omega
    have h3 : ¬ ((ps.length : Int) = -1) := by omega
    have h4 : ps.length * entWidth ≥ ((newIndex [] C).writeAll 0 ps).1.size := by
      rw [hsz12, hw]; omega
    unfold index.Read
    simp only [h1, h2, h3, h4, if_false, ↓reduceIte, Int.toNat_ofNat]

/-- Witness of C13: three writes of the positions 0, 19, 38 to a new index of capacity 36;
`Read(1)` returns `(1, 19)`, `Read(-1)` returns `(2, 38)`, and `Read(3)` is not found. -/
theorem index_round_trip_witness :
    ((newIndex [] 36).writeAll 0 [0, 19, 38]).2 = [none, none, none] ∧
      ((newIndex [] 36).writeAll 0 [0, 19, 38]).1.Read 1 = (1, 19, none) ∧
      ((newIndex [] 36).writeAll 0 [0, 19, 38]).1.Read (-1) = (2, 38, none) ∧
      (((newIndex [] 36).writeAll 0 [0, 19, 38]).1.Read ((([0, 19, 38] : List Nat).length : Nat) : Int)).2.2 =
        some IndexError.notFound :=
  have h := index_round_trip 36 [0, 19, 38] (by decide) (by decide) (by decide) (by decide)
  ⟨by decide, by decide, by decide, h.2.2.2⟩

end Log
